import Mathlib

/-!
# simple_shell: the quote-aware command parser of `shell.c`

A shallow embedding of the parsing functions of `src/shell.c`
(`check_quote`, `concatenate_quotes`, `quote_concat_ll`, `command_parser`,
`strip_quotes`) and theorems about them.

Modelling conventions.

* A C string is the list of its characters before the terminating NUL.
* A NULL-terminated `char*` array is the list of the strings before the NULL.
  All strings of one parse live in the single line buffer, in increasing
  address order and separated by at least one byte; `concatenate_quotes`
  keeps that layout, which is why its in-place copy yields the plain
  concatenation modelled here.
* A function returns `none` where the C program has no defined result:
  a NULL pointer is dereferenced or a 50-slot index array is written past its
  end.
* The array `command_split` belongs to the caller (`cmd_parsed` in
  `call_cmd`, 1000 slots, not initialised); its contents on entry are a
  parameter of the model, and it is taken to be large enough for the tokens.
* The C name `command_parser` is rendered `command_parser_fn`.
-/

namespace SimpleShell

/-- Characters of a C string, terminator excluded. -/
abbrev CStr := List Char

/-- The single quote character. -/
def SQ : Char := Char.ofNat 39

/-- The double quote character. -/
def DQ : Char := Char.ofNat 34

/-- The space character, the only delimiter handed to `strtok`. -/
def SP : Char := Char.ofNat 32

/-- The NUL character returned by `check_quote` when no quote is present. -/
def NUL : Char := Char.ofNat 0

/-- The digit zero, initial value of `val` in `quote_concat_ll`. -/
def ZERO : Char := Char.ofNat 48

/-- Characters of a string literal as a C string. -/
def cstr (s : String) : CStr := s.toList

/-! ## check_quote (shell.c:39-47) -/

/-- The function `check_quote`: the single quote if the string has one, else
the double quote if it has one, else NUL. -/
def check_quote (arr : CStr) : Char :=
  if SQ ∈ arr then SQ
  else if DQ ∈ arr then DQ
  else NUL

/-! ## concatenate_quotes (shell.c:57-92) -/

/-- One pass of the body of `while (i != final_quote_position)`:
`are[i]` gets a space and the text of `are[i+1]` appended, and the pointers
after `i` are shifted left by one. Both `are[i]` and `are[i+1]` are
dereferenced, so both have to be strings of the array; the test
`next == 0x0` of line 71 comes after that dereference and never holds. -/
def concat_step (are : List CStr) (i : Int) : Option (List CStr) :=
  match i with
  | Int.ofNat k =>
    match are[k]?, are[k + 1]? with
    | some current, some next => some (are.take k ++ (current ++ SP :: next) :: are.drop (k + 2))
    | _, _ => none
  | Int.negSucc _ => none

/-- The loop of `concatenate_quotes`, with the running `final_quote_position`
and `reductions`. Every pass removes one pointer, so the number of strings
bounds the number of passes. -/
def concat_loop : Nat → List CStr → Int → Int → Int → Option (List CStr × Int)
  | fuel, are, i, final_quote_position, reductions =>
    if i = final_quote_position then some (are, reductions)
    else
      match fuel with
      | 0 => none
      | fuel + 1 =>
        match concat_step are i with
        | none => none
        | some are1 => concat_loop fuel are1 i (final_quote_position - 1) (reductions + 1)

/-- The call `concatenate_quotes(are, i, final_quote_position)`: the array
afterwards and the returned number of reductions. The passes are bounded by
the number of strings, which is never the reason for `none`
(`concat_loop_fuel`). -/
def concatenate_quotes (are : List CStr) (i final_quote_position : Int) :
    Option (List CStr × Int) :=
  concat_loop are.length are i final_quote_position 0

/-! ## quote_concat_ll (shell.c:101-152) -/

/-- The inner `for` loop of lines 112-119: the flags `lock_single` and
`lock_double` after the characters of one token. -/
def quote_locks : Bool → Bool → CStr → Bool × Bool
  | lock_single, lock_double, [] => (lock_single, lock_double)
  | lock_single, lock_double, c :: cs =>
    if c = SQ then
      quote_locks (if lock_single then false else (true && !lock_double)) lock_double cs
    else if c = DQ then
      quote_locks lock_single (if lock_double then false else (true && !lock_single)) cs
    else quote_locks lock_single lock_double cs

/-- Local variables of `quote_concat_ll` during the scan. The two index
arrays have 50 slots, all initialised to -1 by `memset`. -/
structure ScanState where
  i : Nat
  count : Nat
  lock : Bool
  start_idx : Nat → Int
  end_idx : Nat → Int
  val : Char

/-- State at the start of the scan (lines 102-106). -/
def scan_init : ScanState :=
  { i := 0, count := 0, lock := false,
    start_idx := fun _ => -1, end_idx := fun _ => -1, val := ZERO }

/-- One pass of the body of `while (cmd[i] != NULL)` on the token `cmd[i]`
(lines 109-136). Writing slot `count` of a 50-slot array needs `count < 50`. -/
def scan_step (st : ScanState) (tok : CStr) : Option ScanState :=
  if (SQ ∈ tok ∨ DQ ∈ tok) ∧ st.lock = false then
    let locks := quote_locks false false tok
    if locks.1 || locks.2 then
      if st.count < 50 then
        some { st with
          lock := true
          start_idx := Function.update st.start_idx st.count (st.i : Int)
          val := check_quote tok
          i := st.i + 1 }
      else none
    else some { st with i := st.i + 1 }
  else if check_quote tok = st.val ∧ st.lock = true then
    if st.count < 50 then
      some { st with
        end_idx := Function.update st.end_idx st.count (st.i : Int)
        lock := false
        count := st.count + 1
        i := st.i + 1 }
    else none
  else some { st with i := st.i + 1 }

/-- The scan `while (cmd[i] != NULL)` over the tokens from index `i` on. -/
def scan_loop : ScanState → List CStr → Option ScanState
  | st, [] => some st
  | st, tok :: rest =>
    match scan_step st tok with
    | none => none
    | some st1 => scan_loop st1 rest

/-- The merge loop of lines 144-149, `n` passes from index `ptr` on. The
value returned by `concatenate_quotes` is assigned to `reductions`, not added
to it. The local `pos` of line 146 is never used and is left out. -/
def merge_loop (start_idx end_idx : Nat → Int) :
    Nat → Nat → Int → List CStr → Option (List CStr)
  | 0, _, _, cmd => some cmd
  | n + 1, ptr, reductions, cmd =>
    if start_idx ptr = -1 ∨ end_idx ptr = -1 then some cmd
    else
      match concatenate_quotes cmd (start_idx ptr - reductions) (end_idx ptr - reductions) with
      | none => none
      | some (cmd1, r) => merge_loop start_idx end_idx n (ptr + 1) r cmd1

/-- The call `quote_concat_ll(cmd, length)`: the returned status and the
array afterwards. The parameter `length` is not used by the C function. -/
def quote_concat_ll (cmd : List CStr) (_length : Nat) : Option (Int × List CStr) :=
  match scan_loop scan_init cmd with
  | none => none
  | some st =>
    if st.lock then some (-1, cmd)
    else
      match merge_loop st.start_idx st.end_idx st.count 0 0 cmd with
      | none => none
      | some cmd1 => some (0, cmd1)

/-! ## command_parser (shell.c:161-177) -/

/-- One call of `strtok` with the delimiter set `" "` on the text that is
left: the token found and the text after it, or `none` for a NULL result. -/
def strtok (s : CStr) : Option (CStr × CStr) :=
  match s.dropWhile (fun c => c == SP) with
  | [] => none
  | c :: cs =>
    some ((c :: cs).takeWhile (fun c => c != SP),
          ((c :: cs).dropWhile (fun c => c != SP)).drop 1)

/-- The loop of lines 166-169 collecting the tokens. Every token found
shortens the text left, so the length of the text bounds the passes. -/
def split_loop : Nat → CStr → List CStr
  | 0, _ => []
  | fuel + 1, s =>
    match strtok s with
    | none => []
    | some (tok, rest) => tok :: split_loop fuel rest

/-- The tokens stored in `command_split[0 .. words)` by `command_parser`. -/
def tokenize (cmd : CStr) : List CStr := split_loop cmd.length cmd

/-- The caller's array after the tokens have been stored from slot 0 on;
`none` is a NULL pointer. Slots that were not written keep what the caller
left in them. -/
def store (command_split : Nat → Option CStr) (toks : List CStr) : Nat → Option CStr :=
  fun k => match toks[k]? with
    | some t => some t
    | none => command_split k

/-- The call `command_parser(cmd, command_split)`: the returned status with
the strings left in `command_split` up to its NULL terminator. On the two
early returns the array has not been terminated and no string is reported.
`command_split` gives the contents of the caller's array on entry. -/
def command_parser_fn (cmd : CStr) (command_split : Nat → Option CStr) :
    Option (Int × List CStr) :=
  if cmd.length ≤ 0 then some (-1, [])
  else
    let toks := tokenize cmd
    let words := toks.length
    if store command_split toks 0 = none then some (-3, [])
    else
      match quote_concat_ll toks words with
      | none => none
      | some (status, args) =>
        let count := args.length
        if count > 99 then some (-2, args)
        else if status = -1 then some (-1, args)
        else some (0, args)

/-! ## strip_quotes (shell.c:185-198) -/

/-- The body of the loop of `strip_quotes` on one argument: `memmove` of
`len - 2` characters from index 1 to index 0, then the terminator at
`len - 2`. -/
def strip_one (a : CStr) : CStr :=
  let len := a.length
  if len ≥ 2 ∧ ((a[0]? = some SQ ∧ a[len - 1]? = some SQ) ∨
                (a[0]? = some DQ ∧ a[len - 1]? = some DQ)) then
    (a.drop 1).take (len - 2)
  else a

/-- The call `strip_quotes(args)`: every argument up to the NULL is treated
in turn. -/
def strip_quotes : List CStr → List CStr
  | [] => []
  | a :: rest => strip_one a :: strip_quotes rest

/-! ## Specification-side definitions -/

/-- An argument wrapped in a matching pair of quote characters: at least two
characters, the first and the last one the same quote character. -/
def quote_wrapped (a : CStr) : Prop :=
  2 ≤ a.length ∧ ((a.head? = some SQ ∧ a.getLast? = some SQ) ∨
                  (a.head? = some DQ ∧ a.getLast? = some DQ))

instance (a : CStr) : Decidable (quote_wrapped a) := by
  unfold quote_wrapped; infer_instance

/-- An argument without its first and its last character. -/
def unwrap (a : CStr) : CStr := a.tail.dropLast

/-- The maximal runs of non-space characters of a line, from left to right:
the line is cut at every space and the empty pieces are dropped. -/
def nonspace_runs (line : CStr) : List CStr :=
  (line.splitOn SP).filter (fun r => decide (r ≠ []))

/-! ## Grouping of a token list, as the scan of `quote_concat_ll` sees it -/

/-- Whether a token met outside a span opens one (lines 109-125): it has a
quote character and one of `lock_single`, `lock_double` is set after it. -/
def opens (t : CStr) : Bool :=
  decide (SQ ∈ t ∨ DQ ∈ t) &&
    ((quote_locks false false t).1 || (quote_locks false false t).2)

/-- A group of consecutive tokens: a token that opens no span, or a span
made of its opening token, the tokens inside and its closing token. -/
inductive Seg where
  | tok (t : CStr)
  | span (o : CStr) (mid : List CStr) (c : CStr)

/-- Tokens of a group, in order. -/
def Seg.toks : Seg → List CStr
  | .tok t => [t]
  | .span o mid c => o :: (mid ++ [c])

/-- The argument a group stands for: its tokens joined by single spaces. -/
def Seg.arg : Seg → CStr
  | .tok t => t
  | .span o mid c => List.intercalate [SP] (o :: (mid ++ [c]))

/-- A group is well formed when the scan, started outside a span at its
first token, treats it as such: a lone token opens nothing; the first token
of a span opens it, the last one is the first for which `check_quote` gives
the remembered character `val`. -/
def Seg.ok : Seg → Prop
  | .tok t => opens t = false
  | .span o mid c =>
      opens o = true ∧ (∀ m ∈ mid, check_quote m ≠ check_quote o) ∧
        check_quote c = check_quote o

/-- Number of spans among the groups. -/
def nspans : List Seg → Nat
  | [] => 0
  | .tok _ :: rest => nspans rest
  | .span _ _ _ :: rest => nspans rest + 1

/-- Start and end token index of every span, for groups whose first token
has index `i0`. -/
def spans_from : List Seg → Nat → List (Nat × Nat)
  | [], _ => []
  | .tok _ :: rest, i0 => spans_from rest (i0 + 1)
  | .span _ mid _ :: rest, i0 =>
      (i0, i0 + mid.length + 1) :: spans_from rest (i0 + mid.length + 2)

/-- The merge loop of lines 144-149 over a list of recorded spans. -/
def merge_spans : List (Nat × Nat) → Int → List CStr → Option (List CStr)
  | [], _, cmd => some cmd
  | (s, e) :: rest, reductions, cmd =>
    match concatenate_quotes cmd ((s : Int) - reductions) ((e : Int) - reductions) with
    | none => none
    | some (cmd1, r) => merge_spans rest r cmd1

/-- What the scan has recorded between two states: it is outside a span,
`sp` lists the spans added in slots `count ..`, earlier slots are untouched. -/
def Recorded (st st1 : ScanState) (sp : List (Nat × Nat)) (ntoks : Nat) : Prop :=
  st1.lock = false ∧ st1.count = st.count + sp.length ∧ st1.i = st.i + ntoks ∧
  (∀ k, k < st.count → st1.start_idx k = st.start_idx k ∧ st1.end_idx k = st.end_idx k) ∧
  (∀ j s e : Nat, sp[j]? = some (s, e) →
    st1.start_idx (st.count + j) = (s : Int) ∧ st1.end_idx (st.count + j) = (e : Int))

/-! ## Command lines as words and quoted phrases -/

/-- An item of a command line: a plain word, a quoted phrase of one word
`q w q`, or a quoted phrase of two or more words `q a ... b q`, where `q` is a
quote character and `mid` lists the words between the first and the last. -/
inductive Piece where
  | word (w : CStr)
  | quoted (q : Char) (w : CStr)
  | phrase (q : Char) (a : CStr) (mid : List CStr) (b : CStr)

/-- Space-separated tokens of an item. -/
def Piece.toks : Piece → List CStr
  | .word w => [w]
  | .quoted q w => [q :: (w ++ [q])]
  | .phrase q a mid b => (q :: a) :: (mid ++ [b ++ [q]])

/-- The argument expected for an item before quote stripping: the words of
a phrase joined by single spaces, between its quotes. -/
def Piece.merged : Piece → CStr
  | .word w => w
  | .quoted q w => q :: (w ++ [q])
  | .phrase q a mid b => q :: (List.intercalate [SP] (a :: (mid ++ [b])) ++ [q])

/-- The argument expected for an item after quote stripping. -/
def Piece.stripped : Piece → CStr
  | .word w => w
  | .quoted _ w => w
  | .phrase _ a mid b => List.intercalate [SP] (a :: (mid ++ [b]))

/-- No quote character in a string. -/
def quote_free (w : CStr) : Prop := SQ ∉ w ∧ DQ ∉ w

instance (w : CStr) : Decidable (quote_free w) := by
  unfold quote_free; infer_instance

/-- The words of an item have no quote character and `q` is one. -/
def Piece.valid : Piece → Prop
  | .word w => quote_free w
  | .quoted q w => (q = SQ ∨ q = DQ) ∧ quote_free w
  | .phrase q a mid b =>
      (q = SQ ∨ q = DQ) ∧ quote_free a ∧ (∀ m ∈ mid, quote_free m) ∧ quote_free b

instance (p : Piece) : Decidable p.valid := by
  cases p <;> unfold Piece.valid <;> infer_instance

/-- Number of quoted phrases of two or more words. -/
def nphrases : List Piece → Nat
  | [] => 0
  | .phrase _ _ _ _ :: rest => nphrases rest + 1
  | _ :: rest => nphrases rest

/-- The group of tokens an item gives rise to. -/
def Piece.seg : Piece → Seg
  | .word w => .tok w
  | .quoted q w => .tok (q :: (w ++ [q]))
  | .phrase q a mid b => .span (q :: a) mid (b ++ [q])

/-- The two quote characters, in either order. -/
def quote_pair (q other : Char) : Prop := (q = SQ ∧ other = DQ) ∨ (q = DQ ∧ other = SQ)

/-- An argument is quote-balanced when the left-to-right scan of its
characters, in which a quote toggles its own kind unless the other kind is
open, ends outside any quote. -/
def quote_balanced (a : CStr) : Prop := quote_locks false false a = (false, false)

instance (a : CStr) : Decidable (quote_balanced a) := by
  unfold quote_balanced; infer_instance

/-! ## invoke_cmd (shell.c:206-253) and the read loop (shell.c:285-289) -/

/-- What `invoke_cmd` asks of the operating system, the outcome of the
system calls left aside. -/
inductive Action where
  /-- Line 214-215: the farewell is printed and `exit(EXIT_SUCCESS)` called. -/
  | exit_success
  /-- Line 218: plain `return`, nothing printed, nothing changed. -/
  | nothing
  /-- Line 220: "cd failed invalid argument" is reported, `chdir` not called. -/
  | cd_invalid
  /-- Line 221: `chdir(args[1])`. -/
  | chdir (path : CStr)
  /-- Lines 226-251: `fork`, `execvp(args[0], args)` in the child, `waitpid`
  in the parent. -/
  | spawn (argv : List CStr)
  deriving DecidableEq

/-- The function `invoke_cmd`: the arguments are stripped of their quotes,
then the first one selects the action. `strcmp` on a NULL `args[0]` has no
defined result. -/
def invoke_cmd (args : List CStr) : Option Action :=
  match strip_quotes args with
  | [] => none
  | a0 :: rest =>
    if a0 = cstr "exit" then some Action.exit_success
    else if a0 = cstr "cd" then
      match rest with
      | [] => some Action.nothing
      | a1 :: _ =>
        if a1.length < 1 then some Action.cd_invalid
        else some (Action.chdir a1)
    else some (Action.spawn (a0 :: rest))

/-- What `call_cmd` does with the status returned by `command_parser`
(lines 286-289). -/
inductive Reaction where
  /-- Line 286: `continue` with nothing printed by the loop. -/
  | silent
  /-- Lines 287-288: the message is reported, then `continue`. -/
  | diagnostic (msg : String)
  /-- Line 289: `invoke_cmd(cmd_parsed)`. -/
  | dispatch
  deriving DecidableEq

/-- Lines 286-289 of `call_cmd`. -/
def call_cmd_reaction (res : Int) : Reaction :=
  if res = -1 then Reaction.silent
  else if res = -2 then Reaction.diagnostic " Number of arguments more than 100"
  else if res = -3 then
    Reaction.diagnostic " Command entered with spaces only. Please input a valid command."
  else Reaction.dispatch

/-! ## Reading a token with respect to quotes, in the words of the spec -/

/-- Where a left-to-right reading of a text stands: outside any quote,
inside a single quote, or inside a double quote. -/
inductive QuoteState where
  | outside
  | in_single
  | in_double
  deriving DecidableEq

/-- One character: a quote character toggles its own kind unless a quote of
the other kind is open, in which case it is inert; any other character
changes nothing. -/
def quote_state_step : QuoteState → Char → QuoteState
  | .outside, c => if c = SQ then .in_single else if c = DQ then .in_double else .outside
  | .in_single, c => if c = SQ then .outside else .in_single
  | .in_double, c => if c = DQ then .outside else .in_double

/-- The state after all characters of a token, starting outside. -/
def quote_state_after (tok : CStr) : QuoteState :=
  tok.foldl quote_state_step QuoteState.outside

/-- The reading of a token ends with a quote still open. -/
def ends_open (tok : CStr) : Bool := decide (quote_state_after tok ≠ QuoteState.outside)

/-- The flags `lock_single`, `lock_double` that stand for a state. -/
def QuoteState.flags : QuoteState → Bool × Bool
  | .outside => (false, false)
  | .in_single => (true, false)
  | .in_double => (false, true)

/-! ## The calls made by the merge loop -/

/-- The index pairs handed to `concatenate_quotes` by the merge loop of
lines 144-149, in call order; the loop itself is `merge_loop`. -/
def merge_calls (start_idx end_idx : Nat → Int) :
    Nat → Nat → Int → List CStr → List (Int × Int)
  | 0, _, _, _ => []
  | n + 1, ptr, reductions, cmd =>
    if start_idx ptr = -1 ∨ end_idx ptr = -1 then []
    else
      (start_idx ptr - reductions, end_idx ptr - reductions) ::
        match concatenate_quotes cmd (start_idx ptr - reductions) (end_idx ptr - reductions) with
        | none => []
        | some (cmd1, r) => merge_calls start_idx end_idx n (ptr + 1) r cmd1

/-- The index pairs handed to `concatenate_quotes` during one call of
`quote_concat_ll`. -/
def quote_concat_calls (cmd : List CStr) : List (Int × Int) :=
  match scan_loop scan_init cmd with
  | none => []
  | some st =>
    if st.lock then []
    else merge_calls st.start_idx st.end_idx st.count 0 0 cmd

/-- The first three slots of the index arrays after the scan, with the
number of spans recorded. -/
def recorded3 (cmd : List CStr) : Option (Nat × (Int × Int) × (Int × Int) × (Int × Int)) :=
  (scan_loop scan_init cmd).map (fun st =>
    (st.count, (st.start_idx 0, st.end_idx 0), (st.start_idx 1, st.end_idx 1),
      (st.start_idx 2, st.end_idx 2)))

/-- Invariant of the scan: the closed spans lie in order, each with its
start below its end and its end below the index of the token being read; an
open span starts after every closed one; and every span has used up two
tokens, an open one one token. -/
def ScanInv (st : ScanState) : Prop :=
  (∀ k, k < st.count →
    0 ≤ st.start_idx k ∧ st.start_idx k < st.end_idx k ∧ st.end_idx k < (st.i : Int)) ∧
  (∀ k, k + 1 < st.count → st.end_idx k < st.start_idx (k + 1)) ∧
  (st.lock = true →
    0 ≤ st.start_idx st.count ∧ st.start_idx st.count < (st.i : Int) ∧
      ∀ k, k < st.count → st.end_idx k < st.start_idx st.count) ∧
  2 * st.count + (if st.lock = true then 1 else 0) ≤ st.i

/-! ## Theorems -/

/-! ### strip_quotes -/

theorem strip_one_eq (a : CStr) :
    strip_one a = if quote_wrapped a then unwrap a else a := by
  unfold strip_one quote_wrapped unwrap
  simp only [List.head?_eq_getElem?, List.getLast?_eq_getElem?, ge_iff_le]
  split
  · rw [List.drop_one, List.dropLast_eq_take, List.length_tail]
    congr 1
  · rfl

theorem strip_quotes_eq_map (args : List CStr) :
    strip_quotes args = args.map strip_one := by
  induction args with
  | nil => rfl
  | cons a rest ih => simp [strip_quotes, ih]

theorem length_unwrap_lt (a : CStr) (h : quote_wrapped a) :
    (unwrap a).length + 2 = a.length := by
  unfold unwrap
  have := h.1
  simp only [List.length_dropLast, List.length_tail]
  omega

theorem strip_one_fixed_iff (a : CStr) : strip_one a = a ↔ ¬ quote_wrapped a := by
  rw [strip_one_eq]
  constructor
  · intro h hw
    rw [if_pos hw] at h
    have := length_unwrap_lt a hw
    rw [h] at this
    omega
  · intro h
    rw [if_neg h]

/-- C6: `strip_quotes` keeps the number and order of the arguments; an
argument of length at least 2 whose first and last characters are the same
quote character loses exactly its first and its last character, every
interior character being kept, and every other argument is unchanged. -/
theorem strip_quotes_spec (args : List CStr) :
    (strip_quotes args).length = args.length ∧
    strip_quotes args =
      args.map (fun a =>
        if 2 ≤ a.length ∧ ((a.head? = some SQ ∧ a.getLast? = some SQ) ∨
                           (a.head? = some DQ ∧ a.getLast? = some DQ))
        then a.tail.dropLast else a) := by
  have h : strip_quotes args =
      args.map (fun a =>
        if 2 ≤ a.length ∧ ((a.head? = some SQ ∧ a.getLast? = some SQ) ∨
                           (a.head? = some DQ ∧ a.getLast? = some DQ))
        then a.tail.dropLast else a) := by
    rw [strip_quotes_eq_map]
    apply List.map_congr_left
    intro a _
    exact strip_one_eq a
  refine ⟨?_, h⟩
  rw [h, List.length_map]

/-- C7, as stated, fails: the argument `""a""` is stripped to `"a"` by the
first call and to `a` by the second. -/
theorem strip_quotes_not_idempotent :
    strip_quotes (strip_quotes [[DQ, DQ, Char.ofNat 97, DQ, DQ]]) ≠
      strip_quotes [[DQ, DQ, Char.ofNat 97, DQ, DQ]] := by
  decide

/-- C7, amended: stripping twice equals stripping once exactly for the
argument lists in which no argument, once stripped, is again wrapped in a
matching pair of quote characters. -/
theorem strip_quotes_idempotent_iff (args : List CStr) :
    strip_quotes (strip_quotes args) = strip_quotes args ↔
      ∀ a ∈ args, ¬ quote_wrapped (strip_one a) := by
  rw [strip_quotes_eq_map, strip_quotes_eq_map, List.map_map]
  constructor
  · intro h a ha
    rw [← strip_one_fixed_iff]
    have := List.map_inj_left.mp h a ha
    simpa using this
  · intro h
    apply List.map_congr_left
    intro a ha
    simpa using (strip_one_fixed_iff _).mpr (h a ha)

/-- C7 amended at the arguments `"a b"` and `c`: one strip removes the only
pair of quotes, a second strip changes nothing. -/
theorem strip_quotes_idempotent_iff_witness :
    strip_quotes (strip_quotes [DQ :: cstr "a b" ++ [DQ], cstr "c"]) =
      strip_quotes [DQ :: cstr "a b" ++ [DQ], cstr "c"] :=
  (strip_quotes_idempotent_iff [DQ :: cstr "a b" ++ [DQ], cstr "c"]).mpr (by decide)

/-! ### Tokenizing with strtok -/

theorem nonspace_runs_nil : nonspace_runs [] = [] := by
  simp [nonspace_runs]

theorem nonspace_runs_cons_sp (s : CStr) : nonspace_runs (SP :: s) = nonspace_runs s := by
  simp [nonspace_runs, List.splitOn]

theorem nonspace_runs_dropWhile (s : CStr) :
    nonspace_runs (s.dropWhile (fun c => c == SP)) = nonspace_runs s := by
  induction s with
  | nil => rfl
  | cons c s ih =>
    by_cases h : c = SP
    · subst h
      simp only [List.dropWhile_cons, beq_self_eq_true, if_true, ih, nonspace_runs_cons_sp]
    · simp [List.dropWhile_cons, h]

theorem nonspace_runs_single (w : CStr) (hne : w ≠ []) (h : ∀ c ∈ w, c ≠ SP) :
    nonspace_runs w = [w] := by
  unfold nonspace_runs List.splitOn
  rw [List.splitOnP_eq_single]
  · simp [hne]
  · intro x hx
    simpa using h x hx

theorem nonspace_runs_first (w rest : CStr) (hne : w ≠ []) (h : ∀ c ∈ w, c ≠ SP) :
    nonspace_runs (w ++ SP :: rest) = w :: nonspace_runs rest := by
  unfold nonspace_runs List.splitOn
  rw [List.splitOnP_first]
  · simp [hne]
  · intro x hx
    simpa using h x hx
  · simp

theorem split_loop_eq_runs (n : Nat) : ∀ s : CStr, s.length ≤ n →
    split_loop n s = nonspace_runs s := by
  induction n with
  | zero =>
    intro s hs
    have : s = [] := List.length_eq_zero.mp (Nat.le_zero.mp hs)
    subst this
    simp [split_loop, nonspace_runs_nil]
  | succ n ih =>
    intro s hs
    unfold split_loop strtok
    have hlen : (s.dropWhile (fun c => c == SP)).length ≤ s.length :=
      (List.dropWhile_sublist _).length_le
    rw [← nonspace_runs_dropWhile s]
    cases hd : s.dropWhile (fun c => c == SP) with
    | nil => simp [nonspace_runs_nil]
    | cons c cs =>
      rw [hd] at hlen
      have hsplit := List.takeWhile_append_dropWhile (fun c => c != SP) (c :: cs)
      have hc : (c == SP) = false := by
        have := List.head_dropWhile_not (fun c => c == SP) s (by rw [hd]; simp)
        simpa [hd] using this
      have hcne : c ≠ SP := by simpa using hc
      have htne : (c :: cs).takeWhile (fun c => c != SP) ≠ [] := by
        simp [List.takeWhile_cons, hcne]
      have htsp : ∀ x ∈ (c :: cs).takeWhile (fun c => c != SP), x ≠ SP := by
        intro x hx
        simpa using List.mem_takeWhile_imp hx
      simp only []
      cases hdd : (c :: cs).dropWhile (fun c => c != SP) with
      | nil =>
        rw [hdd, List.append_nil] at hsplit
        rw [hsplit]
        rw [nonspace_runs_single (c :: cs) (by simp) (by rw [← hsplit]; exact htsp)]
        cases n <;> simp [split_loop, strtok]
      | cons d rest =>
        have hdsp : d = SP := by
          have := List.head_dropWhile_not (fun c => c != SP) (c :: cs) (by rw [hdd]; simp)
          simpa [hdd] using this
        subst hdsp
        rw [hdd] at hsplit
        have hlen2 : rest.length ≤ n := by
          have := congrArg List.length hsplit
          simp only [List.length_append, List.length_cons] at this hlen hs
          omega
        conv_rhs => rw [← hsplit]
        rw [nonspace_runs_first _ _ htne htsp, List.drop_one, List.tail_cons, ih rest hlen2]

/-- Tokens of a line are its maximal runs of non-space characters. -/
theorem tokenize_eq_runs (line : CStr) : tokenize line = nonspace_runs line :=
  split_loop_eq_runs _ _ (Nat.le_refl _)

theorem tokenize_all_sp (n : Nat) : tokenize (List.replicate n SP) = [] := by
  rw [tokenize_eq_runs]
  induction n with
  | zero => exact nonspace_runs_nil
  | succ n ih => rw [List.replicate_succ, nonspace_runs_cons_sp, ih]

theorem tokenize_intercalate (words : List CStr)
    (hne : ∀ w ∈ words, w ≠ []) (hsp : ∀ w ∈ words, SP ∉ w) :
    tokenize (List.intercalate [SP] words) = words := by
  rw [tokenize_eq_runs]
  by_cases hw : words = []
  · subst hw
    simp [List.intercalate, nonspace_runs_nil]
  · unfold nonspace_runs
    rw [List.splitOn_intercalate _ SP hsp hw]
    rw [List.filter_eq_self]
    intro w hw
    simpa using hne w hw

theorem mem_splitOnP_not {α : Type} (p : α → Bool) : ∀ (s : List α) (t : List α),
    t ∈ s.splitOnP p → ∀ c ∈ t, c ∈ s ∧ p c = false := by
  intro s
  induction s with
  | nil =>
    intro t ht c hc
    simp at ht
    subst ht
    simp at hc
  | cons x s ih =>
    intro t ht c hc
    rw [List.splitOnP_cons] at ht
    by_cases hx : p x = true
    · rw [if_pos hx] at ht
      rcases List.mem_cons.mp ht with h | h
      · subst h
        simp at hc
      · have := ih t h c hc
        exact ⟨List.mem_cons_of_mem _ this.1, this.2⟩
    · rw [if_neg hx] at ht
      cases hsp : s.splitOnP p with
      | nil => exact absurd hsp (List.splitOnP_ne_nil _ _)
      | cons h0 tl =>
        rw [hsp] at ht ih
        simp only [List.modifyHead_cons, List.mem_cons] at ht
        rcases ht with h | h
        · subst h
          rcases List.mem_cons.mp hc with h1 | h1
          · subst h1
            exact ⟨List.mem_cons_self _ _, by simpa using hx⟩
          · have := ih h0 (List.mem_cons_self _ _) c h1
            exact ⟨List.mem_cons_of_mem _ this.1, this.2⟩
        · have := ih t (List.mem_cons_of_mem _ h) c hc
          exact ⟨List.mem_cons_of_mem _ this.1, this.2⟩

/-- Every token is non-empty, has no space and consists of characters of
the line. -/
theorem mem_tokenize (line t : CStr) (ht : t ∈ tokenize line) :
    t ≠ [] ∧ ∀ c ∈ t, c ∈ line ∧ c ≠ SP := by
  rw [tokenize_eq_runs] at ht
  unfold nonspace_runs at ht
  rw [List.mem_filter] at ht
  refine ⟨by simpa using ht.2, ?_⟩
  intro c hc
  have := mem_splitOnP_not (fun x => x == SP) line t ht.1 c hc
  exact ⟨this.1, by simpa using this.2⟩

theorem tokenize_ne_nil_of_mem (line : CStr) (c : Char) (hc : c ∈ line) (hsp : c ≠ SP) :
    tokenize line ≠ [] := by
  rw [tokenize_eq_runs]
  induction line with
  | nil => simp at hc
  | cons x s ih =>
    by_cases hx : x = SP
    · subst hx
      rw [nonspace_runs_cons_sp]
      rcases List.mem_cons.mp hc with h | h
      · exact absurd h hsp
      · exact ih h
    · have hsplit := List.takeWhile_append_dropWhile (fun c => c != SP) (x :: s)
      have htne : (x :: s).takeWhile (fun c => c != SP) ≠ [] := by
        simp [List.takeWhile_cons, hx]
      have htsp : ∀ y ∈ (x :: s).takeWhile (fun c => c != SP), y ≠ SP := by
        intro y hy
        simpa using List.mem_takeWhile_imp hy
      cases hdd : (x :: s).dropWhile (fun c => c != SP) with
      | nil =>
        rw [hdd, List.append_nil] at hsplit
        rw [nonspace_runs_single (x :: s) (by simp) (by rw [← hsplit]; exact htsp)]
        simp
      | cons d rest =>
        have hdsp : d = SP := by
          have := List.head_dropWhile_not (fun c => c != SP) (x :: s) (by rw [hdd]; simp)
          simpa [hdd] using this
        subst hdsp
        rw [hdd] at hsplit
        rw [← hsplit, nonspace_runs_first _ _ htne htsp]
        simp

/-! ### Quote characters -/

theorem SQ_ne_DQ : SQ ≠ DQ := by decide
theorem SQ_ne_NUL : SQ ≠ NUL := by decide
theorem DQ_ne_NUL : DQ ≠ NUL := by decide
theorem SQ_ne_SP : SQ ≠ SP := by decide
theorem DQ_ne_SP : DQ ≠ SP := by decide

theorem check_quote_plain (tok : CStr) (hs : SQ ∉ tok) (hd : DQ ∉ tok) :
    check_quote tok = NUL := by
  simp [check_quote, hs, hd]

theorem check_quote_cases (tok : CStr) :
    check_quote tok = SQ ∨ check_quote tok = DQ ∨ check_quote tok = NUL := by
  unfold check_quote
  split
  · exact Or.inl rfl
  · split
    · exact Or.inr (Or.inl rfl)
    · exact Or.inr (Or.inr rfl)

theorem check_quote_of_mem (tok : CStr) (h : SQ ∈ tok ∨ DQ ∈ tok) :
    check_quote tok ≠ NUL := by
  unfold check_quote
  split
  · exact SQ_ne_NUL
  · rw [if_pos (h.resolve_left ‹_›)]
    exact DQ_ne_NUL

/-! ### command_parser on the tokens of the line -/

theorem tokenize_nil : tokenize [] = [] := rfl

/-- What `command_parser` returns once at least one token has been stored. -/
theorem command_parser_of_tokens (line : CStr) (command_split : Nat → Option CStr)
    (h : tokenize line ≠ []) :
    command_parser_fn line command_split =
      match quote_concat_ll (tokenize line) (tokenize line).length with
      | none => none
      | some (status, args) =>
        if args.length > 99 then some (-2, args)
        else if status = -1 then some (-1, args)
        else some (0, args) := by
  have hline : ¬ line.length ≤ 0 := by
    intro h0
    have : line = [] := List.length_eq_zero.mp (Nat.le_zero.mp h0)
    subst this
    exact h tokenize_nil
  unfold command_parser_fn
  rw [if_neg hline]
  cases ht : tokenize line with
  | nil => exact absurd ht h
  | cons t ts => simp [store]

theorem quote_concat_ll_nil (n : Nat) : quote_concat_ll [] n = some (0, []) := rfl

/-! ### Lines without quote characters -/

theorem scan_step_plain (st : ScanState) (tok : CStr) (hs : SQ ∉ tok) (hd : DQ ∉ tok)
    (hv : st.lock = false ∨ st.val ≠ NUL) :
    scan_step st tok = some { st with i := st.i + 1 } := by
  unfold scan_step
  rw [if_neg (by simp [hs, hd])]
  rw [check_quote_plain tok hs hd]
  rcases hv with h | h
  · rw [if_neg (by simp [h])]
  · rw [if_neg (by intro hc; exact h hc.1.symm)]

theorem scan_loop_plain (toks : List CStr) (hs : ∀ t ∈ toks, SQ ∉ t ∧ DQ ∉ t) :
    ∀ st : ScanState, (st.lock = false ∨ st.val ≠ NUL) →
      scan_loop st toks = some { st with i := st.i + toks.length } := by
  induction toks with
  | nil => intro st _; rfl
  | cons t rest ih =>
    intro st hv
    have ht := hs t (List.mem_cons_self _ _)
    unfold scan_loop
    rw [scan_step_plain st t ht.1 ht.2 hv]
    simp only []
    rw [ih (fun x hx => hs x (List.mem_cons_of_mem _ hx)) { st with i := st.i + 1 } hv]
    simp only [List.length_cons]
    congr 2
    omega

theorem quote_concat_ll_plain (toks : List CStr) (n : Nat)
    (hs : ∀ t ∈ toks, SQ ∉ t ∧ DQ ∉ t) :
    quote_concat_ll toks n = some (0, toks) := by
  unfold quote_concat_ll
  rw [scan_loop_plain toks hs scan_init (Or.inl rfl)]
  simp [scan_init, merge_loop]

/-- C8: a line without quote characters, with a non-space character and at
most 99 tokens, parses with status 0 into its maximal runs of non-space
characters, in order; a text without a space (tabs included) is one token. -/
theorem command_parser_plain (line : CStr) (command_split : Nat → Option CStr)
    (hq : SQ ∉ line ∧ DQ ∉ line) (hc : ∃ c ∈ line, c ≠ SP)
    (hlen : (tokenize line).length ≤ 99) :
    command_parser_fn line command_split = some (0, nonspace_runs line) ∧
    tokenize line = nonspace_runs line ∧
    (∀ w : CStr, w ≠ [] → SP ∉ w → tokenize w = [w]) := by
  obtain ⟨c, hcl, hcsp⟩ := hc
  have hne := tokenize_ne_nil_of_mem line c hcl hcsp
  have hplain : ∀ t ∈ tokenize line, SQ ∉ t ∧ DQ ∉ t := by
    intro t ht
    have := (mem_tokenize line t ht).2
    exact ⟨fun h => hq.1 (this SQ h).1, fun h => hq.2 (this DQ h).1⟩
  refine ⟨?_, tokenize_eq_runs line, ?_⟩
  · rw [command_parser_of_tokens line command_split hne,
      quote_concat_ll_plain _ _ hplain, ← tokenize_eq_runs]
    simp only []
    rw [if_neg (by omega), if_neg (by decide)]
  · intro w hw hsp
    rw [tokenize_eq_runs]
    exact nonspace_runs_single w hw (fun c hc h => hsp (h ▸ hc))

/-- C8 at `echo hello world` and at a word with a tab inside. -/
theorem command_parser_plain_witness :
    command_parser_fn (cstr "echo hello world") (fun _ => none) =
      some (0, [cstr "echo", cstr "hello", cstr "world"]) ∧
    tokenize ((cstr "a" ++ Char.ofNat 9 :: cstr "b")) = [(cstr "a" ++ Char.ofNat 9 :: cstr "b")] :=
  ⟨(command_parser_plain (cstr "echo hello world") (fun _ => none)
      (by decide) ⟨Char.ofNat 101, by decide, by decide⟩ (by decide)).1.trans (by decide),
   (command_parser_plain (cstr "echo hello world") (fun _ => none)
      (by decide) ⟨Char.ofNat 101, by decide, by decide⟩ (by decide)).2.2
      ((cstr "a" ++ Char.ofNat 9 :: cstr "b")) (by decide) (by decide)⟩

/-- C10: on a line of one or more spaces no token is stored, and the status
depends on what the caller left in slot 0 of `command_split`: -3 if that slot
is NULL, but 0 with an empty argument list if it is not, as after an earlier
line `ls` parsed into the same array. -/
theorem command_parser_spaces :
    (∀ (n : Nat) (command_split : Nat → Option CStr),
      tokenize (List.replicate (n + 1) SP) = [] ∧
      command_parser_fn (List.replicate (n + 1) SP) command_split =
        if command_split 0 = none then some (-3, []) else some (0, [])) ∧
    command_parser_fn [SP, SP, SP] (store (fun _ => none) [cstr "ls"]) = some (0, []) := by
  refine ⟨?_, by decide⟩
  intro n command_split
  refine ⟨tokenize_all_sp _, ?_⟩
  unfold command_parser_fn
  rw [if_neg (by simp), tokenize_all_sp]
  simp only [store, List.getElem?_nil, List.length_nil]
  split
  · rfl
  · rfl

/-! ### Unclosed spans and the argument bound -/

theorem scan_loop_locked_ne_nil (cmd : List CStr)
    (h : ∃ st, scan_loop scan_init cmd = some st ∧ st.lock = true) : cmd ≠ [] := by
  intro hnil
  subst hnil
  obtain ⟨st, hst, hl⟩ := h
  simp only [scan_loop, Option.some.injEq] at hst
  subst hst
  simp [scan_init] at hl

theorem quote_concat_ll_minus_one (cmd : List CStr) (n : Nat) (out : List CStr) :
    quote_concat_ll cmd n = some (-1, out) ↔
      ((∃ st, scan_loop scan_init cmd = some st ∧ st.lock = true) ∧ out = cmd) := by
  unfold quote_concat_ll
  cases hs : scan_loop scan_init cmd with
  | none => simp
  | some st =>
    cases hl : st.lock with
    | true =>
      simp only [if_true, Option.some.injEq, Prod.mk.injEq, true_and, exists_eq_left', hl]
      exact eq_comm
    | false =>
      cases hm : merge_loop st.start_idx st.end_idx st.count 0 0 cmd with
      | none =>
        simp only [hl]
        rw [hm]
        simp [hl]
      | some cmd1 =>
        simp only [hl]
        rw [hm]
        simp [hl]

/-- A line of at most 99 tokens whose scan ends inside a span is rejected
with -1, its tokens left as they were split. -/
theorem command_parser_locked (line : CStr) (command_split : Nat → Option CStr)
    (hlen : (tokenize line).length ≤ 99)
    (hopen : ∃ st, scan_loop scan_init (tokenize line) = some st ∧ st.lock = true) :
    command_parser_fn line command_split = some (-1, tokenize line) := by
  have hne : tokenize line ≠ [] := scan_loop_locked_ne_nil _ hopen
  rw [command_parser_of_tokens line command_split hne,
    (quote_concat_ll_minus_one _ _ _).mpr ⟨hopen, rfl⟩]
  simp only []
  rw [if_neg (by omega)]
  simp

/-- C4: `quote_concat_ll` returns -1 exactly when the scan ends with a span
still open, and then the token array is the one it was given, no merge being
applied; for a line of at most 99 tokens `command_parser` then returns -1. -/
theorem quote_concat_ll_unclosed (cmd : List CStr) (n : Nat) :
    (∀ out : List CStr, quote_concat_ll cmd n = some (-1, out) ↔
        ((∃ st, scan_loop scan_init cmd = some st ∧ st.lock = true) ∧ out = cmd)) ∧
    (∀ (line : CStr) (command_split : Nat → Option CStr),
        tokenize line = cmd → cmd.length ≤ 99 →
        (∃ st, scan_loop scan_init cmd = some st ∧ st.lock = true) →
        command_parser_fn line command_split = some (-1, cmd)) := by
  refine ⟨quote_concat_ll_minus_one cmd n, ?_⟩
  intro line command_split htok hlen hopen
  subst htok
  exact command_parser_locked line command_split hlen hopen

/-- C4 at `echo 'it's fine'`: the scan ends inside the span opened by the
last token, the three tokens are returned unmerged and the line is rejected. -/
theorem quote_concat_ll_unclosed_witness :
    quote_concat_ll
        [cstr "echo", SQ :: cstr "it" ++ SQ :: cstr "s", cstr "fine" ++ [SQ]] 3 =
      some (-1, [cstr "echo", SQ :: cstr "it" ++ SQ :: cstr "s", cstr "fine" ++ [SQ]]) ∧
    command_parser_fn (cstr "echo " ++ SQ :: cstr "it" ++ SQ :: cstr "s fine" ++ [SQ])
        (fun _ => none) =
      some (-1, [cstr "echo", SQ :: cstr "it" ++ SQ :: cstr "s", cstr "fine" ++ [SQ]]) :=
  ⟨((quote_concat_ll_unclosed _ 3).1 _).mpr ⟨⟨_, rfl, rfl⟩, rfl⟩,
   (quote_concat_ll_unclosed _ 3).2 _ _ (by decide) (by decide) ⟨_, rfl, rfl⟩⟩

/-- Once `quote_concat_ll` has returned 0 leaving `args`, the status depends
on the number of entries only: -2 for 100 or more, 0 for 1 to 99. -/
theorem command_parser_after_merge (line : CStr) (command_split : Nat → Option CStr)
    (args : List CStr)
    (h : quote_concat_ll (tokenize line) (tokenize line).length = some (0, args)) :
    (100 ≤ args.length → command_parser_fn line command_split = some (-2, args)) ∧
    (1 ≤ args.length → args.length ≤ 99 →
      command_parser_fn line command_split = some (0, args)) := by
  have key : 1 ≤ args.length → command_parser_fn line command_split =
      (if args.length > 99 then some (-2, args) else some (0, args)) := by
    intro h1
    have hne : tokenize line ≠ [] := by
      intro hnil
      rw [hnil, quote_concat_ll_nil] at h
      simp only [Option.some.injEq, Prod.mk.injEq, true_and] at h
      subst h
      simp at h1
    rw [command_parser_of_tokens line command_split hne, h]
    simp only []
    split
    · rfl
    · rw [if_neg (by decide)]
  constructor
  · intro h100
    rw [key (by omega), if_pos (by omega)]
  · intro h1 h99
    rw [key h1, if_neg (by omega)]

/-- At the boundary: a line of 100 one-letter words is rejected with -2, a
line of 99 is accepted with 0. -/
theorem command_parser_boundary_lines :
    command_parser_fn (List.intercalate [SP] (List.replicate 100 (cstr "a"))) (fun _ => none) =
      some (-2, List.replicate 100 (cstr "a")) ∧
    command_parser_fn (List.intercalate [SP] (List.replicate 99 (cstr "a"))) (fun _ => none) =
      some (0, List.replicate 99 (cstr "a")) :=
  ⟨(command_parser_after_merge _ _ (List.replicate 100 (cstr "a")) (by
      rw [tokenize_intercalate _ (by decide) (by decide)]
      exact quote_concat_ll_plain _ _ (by decide))).1 (by decide),
   (command_parser_after_merge _ _ (List.replicate 99 (cstr "a")) (by
      rw [tokenize_intercalate _ (by decide) (by decide)]
      exact quote_concat_ll_plain _ _ (by decide))).2 (by decide) (by decide)⟩

/-- C5 fails on the code: the test `count > 99` does give -2 from 100
arguments on and 0 for 1 to 99 whenever the merge loop returns, with 100
rejected and 99 accepted; but the line `"a b" "c d" "e f"`, whose three quoted
phrases are all closed (the scan ends outside a span with three spans
recorded) and which should leave three arguments, never reaches that test:
the third merge reads past the end of the array. -/
theorem command_parser_bound :
    (∀ (line : CStr) (command_split : Nat → Option CStr) (args : List CStr),
      quote_concat_ll (tokenize line) (tokenize line).length = some (0, args) →
      (100 ≤ args.length → command_parser_fn line command_split = some (-2, args)) ∧
      (1 ≤ args.length → args.length ≤ 99 →
        command_parser_fn line command_split = some (0, args))) ∧
    command_parser_fn (List.intercalate [SP] (List.replicate 100 (cstr "a"))) (fun _ => none) =
      some (-2, List.replicate 100 (cstr "a")) ∧
    command_parser_fn (List.intercalate [SP] (List.replicate 99 (cstr "a"))) (fun _ => none) =
      some (0, List.replicate 99 (cstr "a")) ∧
    tokenize
        (DQ :: cstr "a b" ++ DQ :: SP :: DQ :: cstr "c d" ++ DQ :: SP :: DQ :: cstr "e f" ++
          [DQ]) =
      [DQ :: cstr "a", cstr "b" ++ [DQ], DQ :: cstr "c", cstr "d" ++ [DQ], DQ :: cstr "e",
        cstr "f" ++ [DQ]] ∧
    (scan_loop scan_init
        [DQ :: cstr "a", cstr "b" ++ [DQ], DQ :: cstr "c", cstr "d" ++ [DQ], DQ :: cstr "e",
          cstr "f" ++ [DQ]]).map (fun st => (st.lock, st.count)) = some (false, 3) ∧
    command_parser_fn
        (DQ :: cstr "a b" ++ DQ :: SP :: DQ :: cstr "c d" ++ DQ :: SP :: DQ :: cstr "e f" ++
          [DQ]) (fun _ => none) = none :=
  ⟨fun line command_split args h => command_parser_after_merge line command_split args h,
   command_parser_boundary_lines.1, command_parser_boundary_lines.2,
   by decide!, by decide!, by decide!⟩

/-! ### concatenate_quotes on a range inside the array -/

theorem intercalate_sp_cons_cons (t y : CStr) (ys : List CStr) :
    List.intercalate [SP] (t :: y :: ys) = t ++ SP :: List.intercalate [SP] (y :: ys) := by
  simp [List.intercalate]

theorem intercalate_sp_merge (t y : CStr) (ys : List CStr) :
    List.intercalate [SP] ((t ++ SP :: y) :: ys) = List.intercalate [SP] (t :: y :: ys) := by
  cases ys with
  | nil => simp [List.intercalate]
  | cons z zs => simp [List.intercalate]

theorem concat_step_at (pre post : List CStr) (t y : CStr) :
    concat_step (pre ++ t :: y :: post) (pre.length : Int) =
      some (pre ++ (t ++ SP :: y) :: post) := by
  have h0 : (pre ++ t :: y :: post)[pre.length]? = some t := by
    rw [List.getElem?_append_right (by omega)]
    simp
  have h1 : (pre ++ t :: y :: post)[pre.length + 1]? = some y := by
    rw [List.getElem?_append_right (by omega)]
    simp
  show (match (pre ++ t :: y :: post)[pre.length]?, (pre ++ t :: y :: post)[pre.length + 1]? with
    | some current, some next =>
      some ((pre ++ t :: y :: post).take pre.length ++
        (current ++ SP :: next) :: (pre ++ t :: y :: post).drop (pre.length + 2))
    | _, _ => none) = _
  rw [h0, h1]
  simp only []
  congr 2
  · simp
  · congr 1
    rw [List.drop_append_eq_append_drop]
    simp

theorem concat_loop_range (pre post : List CStr) :
    ∀ (ys : List CStr) (t : CStr) (fuel : Nat) (red : Int), ys.length ≤ fuel →
      concat_loop fuel (pre ++ t :: (ys ++ post)) (pre.length : Int)
          ((pre.length : Int) + ys.length) red =
        some (pre ++ List.intercalate [SP] (t :: ys) :: post, red + ys.length) := by
  intro ys
  induction ys with
  | nil =>
    intro t fuel red _
    unfold concat_loop
    simp [List.intercalate]
  | cons y ys ih =>
    intro t fuel red hf
    cases fuel with
    | zero => simp at hf
    | succ fuel =>
      unfold concat_loop
      rw [if_neg (by simp only [List.length_cons]; push_cast; omega)]
      simp only [List.cons_append]
      rw [concat_step_at]
      simp only []
      have hf2 : ys.length ≤ fuel := by simpa using hf
      have := ih (t ++ SP :: y) fuel (red + 1) hf2
      rw [intercalate_sp_merge] at this
      have e1 : (pre.length : Int) + ((y :: ys).length : Int) - 1 = pre.length + ys.length := by
        simp only [List.length_cons]; push_cast; omega
      have e2 : red + 1 + (ys.length : Int) = red + ((y :: ys).length : Int) := by
        simp only [List.length_cons]; push_cast; omega
      rw [e1, this, e2]

/-- Merging the range that starts after `pre` and spans `t` and `ys`: the
range becomes the single string of its tokens joined by single spaces, the
rest of the array is untouched, and the number of tokens removed is returned. -/
theorem concatenate_quotes_range (pre post ys : List CStr) (t : CStr) (i f : Int)
    (hi : i = pre.length) (hf : f = pre.length + ys.length) :
    concatenate_quotes (pre ++ t :: (ys ++ post)) i f =
      some (pre ++ List.intercalate [SP] (t :: ys) :: post, (ys.length : Int)) := by
  subst hi hf
  unfold concatenate_quotes
  rw [concat_loop_range pre post ys t _ 0 (by simp; omega)]
  simp

theorem concat_step_length (are are1 : List CStr) (i : Int)
    (h : concat_step are i = some are1) : are1.length + 1 = are.length := by
  cases i with
  | ofNat k =>
    simp only [concat_step] at h
    cases h0 : are[k]? with
    | none => rw [h0] at h; simp at h
    | some cur =>
      cases h1 : are[k + 1]? with
      | none => rw [h0, h1] at h; simp at h
      | some next =>
        rw [h0, h1] at h
        simp only [Option.some.injEq] at h
        subst h
        have hk : k + 1 < are.length := by
          rcases Nat.lt_or_ge (k + 1) are.length with hlt | hge
          · exact hlt
          · rw [List.getElem?_eq_none hge] at h1
            exact absurd h1 (by simp)
        simp only [List.length_append, List.length_take, List.length_cons, List.length_drop]
        omega
  | negSucc k => simp [concat_step] at h

/-- The loop of `concatenate_quotes` never stops for want of passes: with
any bound of at least the number of strings it gives the same result. -/
theorem concat_loop_fuel (fuel : Nat) : ∀ (are : List CStr) (i f red : Int),
    are.length ≤ fuel →
    concat_loop fuel are i f red = concat_loop are.length are i f red := by
  induction fuel with
  | zero =>
    intro are i f red h
    have : are.length = 0 := Nat.le_zero.mp h
    rw [this]
  | succ fuel ih =>
    intro are i f red h
    by_cases hif : i = f
    · unfold concat_loop
      simp [hif]
    · cases hstep : concat_step are i with
      | none =>
        unfold concat_loop
        rw [if_neg hif, if_neg hif]
        simp only [hstep]
        cases are.length <;> rfl
      | some are1 =>
        have hl := concat_step_length are are1 i hstep
        rw [← hl]
        unfold concat_loop
        rw [if_neg hif, if_neg hif]
        simp only [hstep]
        rw [ih are1 i (f - 1) (red + 1) (by omega)]

/-! ### The scan, token by token -/

theorem scan_step_tok (st : ScanState) (t : CStr) (hl : st.lock = false)
    (ht : opens t = false) : scan_step st t = some { st with i := st.i + 1 } := by
  unfold scan_step
  by_cases hq : SQ ∈ t ∨ DQ ∈ t
  · rw [if_pos ⟨hq, hl⟩]
    have : ((quote_locks false false t).1 || (quote_locks false false t).2) = false := by
      simpa [opens, hq] using ht
    simp only [this]
    rfl
  · rw [if_neg (fun h => hq h.1), if_neg (by simp [hl])]

theorem scan_step_open (st : ScanState) (t : CStr) (hl : st.lock = false)
    (ht : opens t = true) (hc : st.count < 50) :
    scan_step st t = some { st with
      lock := true
      start_idx := Function.update st.start_idx st.count (st.i : Int)
      val := check_quote t
      i := st.i + 1 } := by
  unfold scan_step
  simp only [opens, Bool.and_eq_true, decide_eq_true_eq] at ht
  rw [if_pos ⟨ht.1, hl⟩]
  simp only [ht.2, if_true, hc]

theorem scan_step_open_none (st : ScanState) (t : CStr) (hl : st.lock = false)
    (ht : opens t = true) (hc : ¬ st.count < 50) : scan_step st t = none := by
  unfold scan_step
  simp only [opens, Bool.and_eq_true, decide_eq_true_eq] at ht
  rw [if_pos ⟨ht.1, hl⟩]
  simp only [ht.2, if_true, hc, if_false]

theorem scan_step_mid (st : ScanState) (t : CStr) (hl : st.lock = true)
    (ht : check_quote t ≠ st.val) : scan_step st t = some { st with i := st.i + 1 } := by
  unfold scan_step
  rw [if_neg (by simp [hl]), if_neg (fun h => ht h.1)]

theorem scan_step_close (st : ScanState) (t : CStr) (hl : st.lock = true)
    (ht : check_quote t = st.val) (hc : st.count < 50) :
    scan_step st t = some { st with
      end_idx := Function.update st.end_idx st.count (st.i : Int)
      lock := false
      count := st.count + 1
      i := st.i + 1 } := by
  unfold scan_step
  rw [if_neg (by simp [hl]), if_pos ⟨ht, hl⟩, if_pos hc]

theorem scan_step_close_none (st : ScanState) (t : CStr) (hl : st.lock = true)
    (ht : check_quote t = st.val) (hc : ¬ st.count < 50) : scan_step st t = none := by
  unfold scan_step
  rw [if_neg (by simp [hl]), if_pos ⟨ht, hl⟩, if_neg hc]

theorem scan_loop_append (a b : List CStr) : ∀ st : ScanState,
    scan_loop st (a ++ b) = (scan_loop st a).bind (fun st1 => scan_loop st1 b) := by
  induction a with
  | nil => intro st; rfl
  | cons t a ih =>
    intro st
    simp only [List.cons_append, scan_loop]
    cases scan_step st t with
    | none => rfl
    | some st1 => exact ih st1

theorem scan_loop_mid (mid : List CStr) : ∀ st : ScanState, st.lock = true →
    (∀ m ∈ mid, check_quote m ≠ st.val) →
    scan_loop st mid = some { st with i := st.i + mid.length } := by
  induction mid with
  | nil => intro st _ _; rfl
  | cons m mid ih =>
    intro st hl hm
    unfold scan_loop
    rw [scan_step_mid st m hl (hm m (List.mem_cons_self _ _))]
    simp only []
    rw [ih { st with i := st.i + 1 } hl (fun x hx => hm x (List.mem_cons_of_mem _ hx))]
    simp only [List.length_cons]
    congr 2
    omega

/-- The scan over one well-formed span, started outside a span. -/
theorem scan_loop_span (st : ScanState) (o c : CStr) (mid : List CStr)
    (hl : st.lock = false) (hok : (Seg.span o mid c).ok) (hc : st.count < 50) :
    scan_loop st (o :: (mid ++ [c])) = some { st with
      start_idx := Function.update st.start_idx st.count (st.i : Int)
      end_idx := Function.update st.end_idx st.count ((st.i + mid.length + 1 : Nat) : Int)
      val := check_quote o
      count := st.count + 1
      i := st.i + mid.length + 2 } := by
  obtain ⟨ho, hm, hcl⟩ := hok
  unfold scan_loop
  rw [scan_step_open st o hl ho hc]
  simp only []
  rw [scan_loop_append, scan_loop_mid mid _ rfl hm]
  simp only [Option.bind, scan_loop]
  rw [scan_step_close
    { i := st.i + 1 + mid.length, count := st.count, lock := true,
      start_idx := Function.update st.start_idx st.count (st.i : Int),
      end_idx := st.end_idx, val := check_quote o } c rfl hcl hc]
  simp only [hl]
  have e1 : st.i + 1 + mid.length + 1 = st.i + mid.length + 2 := by omega
  have e2 : ((st.i + 1 + mid.length : Nat) : Int) = ((st.i + mid.length + 1 : Nat) : Int) := by
    congr 1
    omega
  rw [e1, e2]

/-! ### The scan and the merge over well-formed groups -/

theorem spans_from_length (segs : List Seg) : ∀ i0, (spans_from segs i0).length = nspans segs := by
  induction segs with
  | nil => intro i0; rfl
  | cons s rest ih =>
    intro i0
    cases s with
    | tok t => simp [spans_from, nspans, ih]
    | span o mid c => simp [spans_from, nspans, ih]

theorem toks_length_span (o c : CStr) (mid : List CStr) :
    (Seg.span o mid c).toks.length = mid.length + 2 := by
  simp [Seg.toks]

/-- The scan over well-formed groups, started outside a span, ends outside
a span and has recorded exactly the spans of the groups. -/
theorem scan_loop_segs (segs : List Seg) : ∀ st : ScanState, st.lock = false →
    (∀ s ∈ segs, s.ok) → st.count + nspans segs ≤ 50 →
    ∃ st1, scan_loop st (segs.flatMap Seg.toks) = some st1 ∧
      Recorded st st1 (spans_from segs st.i) (segs.flatMap Seg.toks).length := by
  induction segs with
  | nil =>
    intro st hl _ _
    exact ⟨st, rfl, hl, by simp [spans_from], by simp, fun k _ => ⟨rfl, rfl⟩,
      by intro j s e h; simp [spans_from] at h⟩
  | cons sg rest ih =>
    intro st hl hok hcount
    have hrest : ∀ s ∈ rest, s.ok := fun s hs => hok s (List.mem_cons_of_mem _ hs)
    cases sg with
    | tok t =>
      have ht : opens t = false := hok (Seg.tok t) (List.mem_cons_self _ _)
      obtain ⟨st1, hscan, h1, h2, h3, h4, h5⟩ :=
        ih { st with i := st.i + 1 } hl hrest (by simpa [nspans] using hcount)
      refine ⟨st1, ?_, h1, ?_, ?_, h4, ?_⟩
      · simp only [List.flatMap_cons, Seg.toks, List.singleton_append, scan_loop]
        rw [scan_step_tok st t hl ht]
        exact hscan
      · simpa [spans_from] using h2
      · simp only [List.flatMap_cons, Seg.toks, List.singleton_append, List.length_cons]
        simp only [] at h3
        omega
      · simpa [spans_from] using h5
    | span o mid c =>
      have hsp : (Seg.span o mid c).ok := hok _ (List.mem_cons_self _ _)
      have hc : st.count < 50 := by simp only [nspans] at hcount; omega
      have hstep := scan_loop_span st o c mid hl hsp hc
      obtain ⟨st1, hscan, h1, h2, h3, h4, h5⟩ :=
        ih { st with
          start_idx := Function.update st.start_idx st.count (st.i : Int)
          end_idx := Function.update st.end_idx st.count ((st.i + mid.length + 1 : Nat) : Int)
          val := check_quote o
          count := st.count + 1
          i := st.i + mid.length + 2 } hl hrest (by simp only [nspans] at hcount ⊢; omega)
      simp only [] at h2 h3 h4 h5
      refine ⟨st1, ?_, h1, ?_, ?_, ?_, ?_⟩
      · simp only [List.flatMap_cons, Seg.toks]
        rw [scan_loop_append, hstep]
        exact hscan
      · simp only [spans_from, List.length_cons]
        omega
      · simp only [List.flatMap_cons, List.length_append, toks_length_span]
        omega
      · intro k hk
        have := h4 k (by omega)
        rw [Function.update_noteq (by omega), Function.update_noteq (by omega)] at this
        exact this
      · intro j s e hj
        cases j with
        | zero =>
          simp only [spans_from, List.getElem?_cons_zero, Option.some.injEq,
            Prod.mk.injEq] at hj
          have := h4 st.count (by omega)
          rw [Function.update_same, Function.update_same] at this
          rw [← hj.1, ← hj.2]
          simpa using this
        | succ j =>
          simp only [spans_from, List.getElem?_cons_succ] at hj
          have := h5 j s e hj
          have e1 : st.count + (j + 1) = st.count + 1 + j := by omega
          rw [e1]
          exact this

/-- The merge loop over the index arrays is the merge loop over the spans
the arrays hold; the guard on -1 never fires for a recorded slot. -/
theorem merge_loop_eq_spans (S E : Nat → Int) (sp : List (Nat × Nat)) :
    ∀ (ptr : Nat) (r : Int) (cmd : List CStr),
      (∀ j s e : Nat, sp[j]? = some (s, e) → S (ptr + j) = (s : Int) ∧ E (ptr + j) = (e : Int)) →
      merge_loop S E sp.length ptr r cmd = merge_spans sp r cmd := by
  induction sp with
  | nil => intro ptr r cmd _; rfl
  | cons p sp ih =>
    intro ptr r cmd h
    obtain ⟨s, e⟩ := p
    have h0 := h 0 s e (by simp)
    simp only [Nat.add_zero] at h0
    simp only [List.length_cons, merge_loop, merge_spans]
    rw [if_neg (by rw [h0.1, h0.2]; omega), h0.1, h0.2]
    cases concatenate_quotes cmd ((s : Int) - r) ((e : Int) - r) with
    | none => rfl
    | some res =>
      obtain ⟨cmd1, r1⟩ := res
      simp only []
      apply ih
      intro j s1 e1 hj
      have := h (j + 1) s1 e1 (by simpa using hj)
      have e2 : ptr + 1 + j = ptr + (j + 1) := by omega
      rw [e2]
      exact this

theorem spans_from_nil_of_nspans (segs : List Seg) (h : nspans segs = 0) :
    ∀ i0, spans_from segs i0 = [] := by
  induction segs with
  | nil => intro i0; rfl
  | cons s rest ih =>
    intro i0
    cases s with
    | tok t => simpa [spans_from] using ih (by simpa [nspans] using h) (i0 + 1)
    | span o mid c => simp [nspans] at h

theorem toks_eq_args_of_nspans (segs : List Seg) (h : nspans segs = 0) :
    segs.flatMap Seg.toks = segs.map Seg.arg := by
  induction segs with
  | nil => rfl
  | cons s rest ih =>
    cases s with
    | tok t =>
      simp only [List.flatMap_cons, Seg.toks, List.map_cons, Seg.arg, List.singleton_append]
      rw [ih (by simpa [nspans] using h)]
    | span o mid c => simp [nspans] at h

/-- With at most one span left, the merge loop is right whatever the
offset `r` of the tokens already removed. -/
theorem merge_spans_one (segs : List Seg) : ∀ (pre : List CStr) (i0 : Nat) (r : Int),
    nspans segs ≤ 1 → (i0 : Int) = pre.length + r →
    merge_spans (spans_from segs i0) r (pre ++ segs.flatMap Seg.toks) =
      some (pre ++ segs.map Seg.arg) := by
  induction segs with
  | nil => intro pre i0 r _ _; rfl
  | cons s rest ih =>
    intro pre i0 r hn hi
    cases s with
    | tok t =>
      have := ih (pre ++ [t]) (i0 + 1) r (by simpa [nspans] using hn)
        (by simp only [List.length_append, List.length_singleton]; push_cast; omega)
      simpa [spans_from, Seg.toks, Seg.arg] using this
    | span o mid c =>
      have h0 : nspans rest = 0 := by simp only [nspans] at hn; omega
      simp only [spans_from, spans_from_nil_of_nspans rest h0, List.flatMap_cons, Seg.toks,
        toks_eq_args_of_nspans rest h0, merge_spans, List.map_cons, Seg.arg, List.cons_append]
      rw [concatenate_quotes_range pre (rest.map Seg.arg) (mid ++ [c]) o _ _ (by omega)
        (by simp only [List.length_append, List.length_singleton]; push_cast; omega)]

/-- From the start of the merge loop (`reductions = 0`) two spans are
merged where they lie: the value returned by the first merge is the whole
offset of the second. -/
theorem merge_spans_two (segs : List Seg) : ∀ (pre : List CStr) (i0 : Nat),
    nspans segs ≤ 2 → i0 = pre.length →
    merge_spans (spans_from segs i0) 0 (pre ++ segs.flatMap Seg.toks) =
      some (pre ++ segs.map Seg.arg) := by
  induction segs with
  | nil => intro pre i0 _ _; rfl
  | cons s rest ih =>
    intro pre i0 hn hi
    cases s with
    | tok t =>
      have := ih (pre ++ [t]) (i0 + 1) (by simpa [nspans] using hn)
        (by simp only [List.length_append, List.length_singleton]; omega)
      simpa [spans_from, Seg.toks, Seg.arg] using this
    | span o mid c =>
      have h1 : nspans rest ≤ 1 := by simp only [nspans] at hn; omega
      simp only [spans_from, List.flatMap_cons, Seg.toks, merge_spans, List.map_cons, Seg.arg,
        List.cons_append]
      rw [concatenate_quotes_range pre (rest.flatMap Seg.toks) (mid ++ [c]) o _ _
        (by subst hi; omega)
        (by subst hi; simp only [List.length_append, List.length_singleton]; push_cast; omega)]
      simp only []
      have := merge_spans_one rest (pre ++ [List.intercalate [SP] (o :: (mid ++ [c]))])
        (i0 + mid.length + 2) ((mid ++ [c]).length : Int) h1
        (by subst hi; simp only [List.length_append, List.length_singleton]; push_cast; omega)
      simpa using this

/-- The result of `quote_concat_ll` on a token list made of well-formed groups with at
most two spans: status 0, every span merged into one argument. -/
theorem quote_concat_ll_segs (segs : List Seg) (n : Nat) (hok : ∀ s ∈ segs, s.ok)
    (hn : nspans segs ≤ 2) :
    quote_concat_ll (segs.flatMap Seg.toks) n = some (0, segs.map Seg.arg) := by
  obtain ⟨st1, hscan, h1, h2, _, _, h5⟩ :=
    scan_loop_segs segs scan_init rfl hok (by simp only [scan_init]; omega)
  unfold quote_concat_ll
  rw [hscan]
  simp only [h1, Bool.false_eq_true, if_false]
  have hcount : st1.count = (spans_from segs 0).length := by
    simpa [scan_init] using h2
  rw [hcount, merge_loop_eq_spans st1.start_idx st1.end_idx (spans_from segs 0) 0 0 _
    (by simpa [scan_init] using h5)]
  have := merge_spans_two segs [] 0 hn rfl
  simp only [List.nil_append] at this
  rw [this]

theorem map_arg_length (segs : List Seg) : (segs.map Seg.arg).length = segs.length := by
  simp

theorem flatMap_toks_ne_nil (segs : List Seg) (h : segs ≠ []) :
    segs.flatMap Seg.toks ≠ [] := by
  cases segs with
  | nil => exact absurd rfl h
  | cons s rest =>
    cases s with
    | tok t => simp [Seg.toks]
    | span o mid c => simp [Seg.toks]

/-- The result of `command_parser` on a line whose tokens form well-formed groups, with
at most two spans and at most 99 groups. -/
theorem command_parser_segs (line : CStr) (command_split : Nat → Option CStr)
    (segs : List Seg) (htok : tokenize line = segs.flatMap Seg.toks)
    (hok : ∀ s ∈ segs, s.ok) (hn : nspans segs ≤ 2) (hne : segs ≠ [])
    (hlen : segs.length ≤ 99) :
    command_parser_fn line command_split = some (0, segs.map Seg.arg) := by
  rw [command_parser_of_tokens line command_split
    (by rw [htok]; exact flatMap_toks_ne_nil segs hne), htok, quote_concat_ll_segs segs _ hok hn]
  simp only [map_arg_length]
  rw [if_neg (by omega), if_neg (by decide)]

/-! ### Words and quoted phrases -/

theorem quote_locks_free (w : CStr) (h : quote_free w) (ls ld : Bool) :
    quote_locks ls ld w = (ls, ld) := by
  induction w with
  | nil => rfl
  | cons c w ih =>
    have hc1 : c ≠ SQ := fun e => h.1 (e ▸ List.mem_cons_self _ _)
    have hc2 : c ≠ DQ := fun e => h.2 (e ▸ List.mem_cons_self _ _)
    unfold quote_locks
    rw [if_neg hc1, if_neg hc2]
    exact ih ⟨fun m => h.1 (List.mem_cons_of_mem _ m), fun m => h.2 (List.mem_cons_of_mem _ m)⟩

theorem quote_locks_append (a b : CStr) : ∀ ls ld : Bool,
    quote_locks ls ld (a ++ b) = quote_locks (quote_locks ls ld a).1 (quote_locks ls ld a).2 b := by
  induction a with
  | nil => intro ls ld; rfl
  | cons c a ih =>
    intro ls ld
    simp only [List.cons_append, quote_locks]
    split
    · exact ih _ _
    · split
      · exact ih _ _
      · exact ih _ _

theorem opens_free (w : CStr) (h : quote_free w) : opens w = false := by
  simp [opens, h.1, h.2]

theorem opens_wrapped (q : Char) (w : CStr) (hq : q = SQ ∨ q = DQ) (h : quote_free w) :
    opens (q :: (w ++ [q])) = false := by
  have : quote_locks false false (q :: (w ++ [q])) = (false, false) := by
    rcases hq with rfl | rfl
    · simp [quote_locks, quote_locks_append, quote_locks_free w h]
    · simp [quote_locks, quote_locks_append, quote_locks_free w h, SQ_ne_DQ.symm]
  simp [opens, this]

theorem opens_leading (q : Char) (a : CStr) (hq : q = SQ ∨ q = DQ) (h : quote_free a) :
    opens (q :: a) = true := by
  rcases hq with rfl | rfl
  · simp [opens, quote_locks, quote_locks_free a h]
  · simp [opens, quote_locks, quote_locks_free a h, SQ_ne_DQ.symm]

theorem check_quote_leading (q : Char) (a : CStr) (hq : q = SQ ∨ q = DQ) (h : quote_free a) :
    check_quote (q :: a) = q := by
  rcases hq with rfl | rfl
  · simp [check_quote]
  · simp [check_quote, h.1, SQ_ne_DQ]

theorem check_quote_trailing (q : Char) (b : CStr) (hq : q = SQ ∨ q = DQ) (h : quote_free b) :
    check_quote (b ++ [q]) = q := by
  rcases hq with rfl | rfl
  · simp [check_quote]
  · simp [check_quote, h.1, SQ_ne_DQ]

theorem seg_ok_of_valid (p : Piece) (h : p.valid) : p.seg.ok := by
  cases p with
  | word w => exact opens_free w h
  | quoted q w => exact opens_wrapped q w h.1 h.2
  | phrase q a mid b =>
    obtain ⟨hq, ha, hm, hb⟩ := h
    refine ⟨opens_leading q a hq ha, ?_, ?_⟩
    · intro m hmm
      rw [check_quote_leading q a hq ha, check_quote_plain m (hm m hmm).1 (hm m hmm).2]
      rcases hq with rfl | rfl
      · exact SQ_ne_NUL.symm
      · exact DQ_ne_NUL.symm
    · rw [check_quote_leading q a hq ha, check_quote_trailing q b hq hb]

theorem seg_toks (p : Piece) : p.seg.toks = p.toks := by
  cases p <;> rfl

theorem intercalate_sp_head (q : Char) (a : CStr) (rest : List CStr) :
    List.intercalate [SP] ((q :: a) :: rest) = q :: List.intercalate [SP] (a :: rest) := by
  cases rest with
  | nil => simp [List.intercalate]
  | cons y ys => simp [List.intercalate]

theorem intercalate_sp_last (q : Char) (b : CStr) (mid : List CStr) : ∀ a : CStr,
    List.intercalate [SP] (a :: (mid ++ [b ++ [q]])) =
      List.intercalate [SP] (a :: (mid ++ [b])) ++ [q] := by
  induction mid with
  | nil =>
    intro a
    simp [List.intercalate]
  | cons m mid ih =>
    intro a
    simp only [List.cons_append, intercalate_sp_cons_cons, ih m, List.append_assoc,
      List.cons_append]

theorem seg_arg (p : Piece) : p.seg.arg = p.merged := by
  cases p with
  | word w => rfl
  | quoted q w => rfl
  | phrase q a mid b =>
    simp only [Piece.seg, Seg.arg, Piece.merged]
    rw [intercalate_sp_head, intercalate_sp_last]

theorem nspans_map_seg (pieces : List Piece) :
    nspans (pieces.map Piece.seg) = nphrases pieces := by
  induction pieces with
  | nil => rfl
  | cons p rest ih =>
    cases p <;> simp [Piece.seg, nspans, nphrases, ih]

theorem strip_one_free (w : CStr) (h : quote_free w) : strip_one w = w := by
  rw [strip_one_fixed_iff]
  rintro ⟨_, hw | hw⟩
  · exact h.1 (List.mem_of_mem_head? hw.1)
  · exact h.2 (List.mem_of_mem_head? hw.1)

theorem strip_one_wrapped (q : Char) (x : CStr) (hq : q = SQ ∨ q = DQ) :
    strip_one (q :: (x ++ [q])) = x := by
  rw [strip_one_eq]
  have hw : quote_wrapped (q :: (x ++ [q])) := by
    refine ⟨by simp, ?_⟩
    have hl : (q :: (x ++ [q])).getLast? = some q := by
      rw [← List.cons_append, List.getLast?_concat]
    rcases hq with rfl | rfl
    · exact Or.inl ⟨rfl, hl⟩
    · exact Or.inr ⟨rfl, hl⟩
  rw [if_pos hw]
  simp [unwrap]

theorem strip_merged (p : Piece) (h : p.valid) : strip_one p.merged = p.stripped := by
  cases p with
  | word w => exact strip_one_free w h
  | quoted q w => exact strip_one_wrapped q w h.1
  | phrase q a mid b => exact strip_one_wrapped q _ h.1

/-- A line whose tokens are those of valid items, at most two of them
phrases of two or more words, with 1 to 99 items: the parse succeeds, every
item is one argument, and stripping leaves the text between the quotes. -/
theorem parse_pieces (line : CStr) (command_split : Nat → Option CStr)
    (pieces : List Piece) (htok : tokenize line = pieces.flatMap Piece.toks)
    (hvalid : ∀ p ∈ pieces, p.valid) (hne : pieces ≠ [])
    (hlen : pieces.length ≤ 99) (hph : nphrases pieces ≤ 2) :
    command_parser_fn line command_split = some (0, pieces.map Piece.merged) ∧
    strip_quotes (pieces.map Piece.merged) = pieces.map Piece.stripped := by
  constructor
  · have h := command_parser_segs line command_split (pieces.map Piece.seg)
      (by rw [htok, List.flatMap_map]
          exact List.flatMap_congr (fun p _ => (seg_toks p).symm))
      (by intro s hs
          obtain ⟨p, hp, rfl⟩ := List.mem_map.mp hs
          exact seg_ok_of_valid p (hvalid p hp))
      (by rw [nspans_map_seg]; exact hph)
      (by simpa using hne)
      (by simpa using hlen)
    rw [h, List.map_map]
    congr 2
    exact List.map_congr_left (fun p _ => seg_arg p)
  · rw [strip_quotes_eq_map, List.map_map]
    exact List.map_congr_left (fun p hp => strip_merged p (hvalid p hp))

/-! ### Quoted phrases on a command line -/

/-- C1, as stated, fails: on `echo "a  b"` the phrase between the quotes is
`a  b`, with two spaces, and the argument produced is `a b`, with one. -/
theorem command_parser_collapses_spaces :
    command_parser_fn (cstr "echo " ++ DQ :: cstr "a  b" ++ [DQ]) (fun _ => none) =
      some (0, [cstr "echo", DQ :: cstr "a b" ++ [DQ]]) ∧
    strip_quotes [cstr "echo", DQ :: cstr "a b" ++ [DQ]] = [cstr "echo", cstr "a b"] ∧
    cstr "a  b" ∉ [cstr "echo", cstr "a b"] := by
  decide

/-- C1, amended: for a line whose space-separated tokens are those of plain
words and quoted phrases (no word holding a quote character), with at most
two phrases of two or more words and 1 to 99 items, `command_parser`
returns 0 and after `strip_quotes` every phrase is exactly one argument, in
input order: its words joined by single spaces, whatever runs of spaces
separated them on the line, without the surrounding quote characters. -/
theorem command_parser_phrases (line : CStr) (command_split : Nat → Option CStr)
    (pieces : List Piece) (htok : tokenize line = pieces.flatMap Piece.toks)
    (hvalid : ∀ p ∈ pieces, p.valid) (hne : pieces ≠ [])
    (hlen : pieces.length ≤ 99) (hph : nphrases pieces ≤ 2) :
    ∃ args, command_parser_fn line command_split = some (0, args) ∧
      strip_quotes args = pieces.map Piece.stripped :=
  ⟨_, parse_pieces line command_split pieces htok hvalid hne hlen hph⟩

/-- C1 amended at `say  "hello   big world" 'x' and 'bye  now'`. -/
theorem command_parser_phrases_witness :
    ∃ args,
      command_parser_fn
        (cstr "say  " ++ DQ :: cstr "hello   big world" ++ DQ :: SP :: SQ :: cstr "x" ++
          SQ :: cstr " and " ++ SQ :: cstr "bye  now" ++ [SQ]) (fun _ => none) = some (0, args) ∧
      strip_quotes args =
        [cstr "say", cstr "hello big world", cstr "x", cstr "and", cstr "bye now"] :=
  command_parser_phrases _ _
    [Piece.word (cstr "say"), Piece.phrase DQ (cstr "hello") [cstr "big"] (cstr "world"),
     Piece.quoted SQ (cstr "x"), Piece.word (cstr "and"),
     Piece.phrase SQ (cstr "bye") [] (cstr "now")]
    (by decide) (by decide) (List.cons_ne_nil _ _) (by decide) (by decide)

theorem flatMap_toks_word (ws : List CStr) :
    (ws.map Piece.word).flatMap Piece.toks = ws := by
  induction ws with
  | nil => rfl
  | cons w ws ih => simp [Piece.toks, ih]

/-- C2: a line of words separated by single spaces, one argument of which
is a quoted phrase `q a m1 ... mk b q` of two or more words, no word holding
a quote character, with at most 99 arguments: `command_parser` returns 0 and
after `strip_quotes` the arguments are the words before the phrase, the words
of the phrase joined by single spaces without the quotes, and the words after
it, in input order. -/
theorem command_parser_one_phrase (before after mid : List CStr) (a b : CStr) (q : Char)
    (command_split : Nat → Option CStr)
    (hq : q = SQ ∨ q = DQ)
    (hwords : ∀ w ∈ before ++ after, w ≠ [] ∧ SP ∉ w ∧ quote_free w)
    (hmid : ∀ w ∈ mid, w ≠ [] ∧ SP ∉ w ∧ quote_free w)
    (ha : SP ∉ a ∧ quote_free a) (hb : SP ∉ b ∧ quote_free b)
    (hlen : before.length + 1 + after.length ≤ 99) :
    command_parser_fn
        (List.intercalate [SP] (before ++ (q :: a) :: (mid ++ [b ++ [q]]) ++ after))
        command_split =
      some (0, before ++ [q :: (List.intercalate [SP] (a :: (mid ++ [b])) ++ [q])] ++ after) ∧
    strip_quotes (before ++ [q :: (List.intercalate [SP] (a :: (mid ++ [b])) ++ [q])] ++ after) =
      before ++ [List.intercalate [SP] (a :: (mid ++ [b]))] ++ after := by
  have hqsp : q ≠ SP := by
    rcases hq with rfl | rfl
    · exact SQ_ne_SP
    · exact DQ_ne_SP
  have htoks : tokenize
      (List.intercalate [SP] (before ++ (q :: a) :: (mid ++ [b ++ [q]]) ++ after)) =
      before ++ (q :: a) :: (mid ++ [b ++ [q]]) ++ after := by
    apply tokenize_intercalate
    · intro w hw
      simp only [List.mem_append, List.mem_cons, List.mem_singleton] at hw
      rcases hw with (h | h | h | h | h) | h
      · exact (hwords w (List.mem_append_left _ h)).1
      · subst h; simp
      · exact (hmid w h).1
      · subst h; simp
      · simp at h
      · exact (hwords w (List.mem_append_right _ h)).1
    · intro w hw
      simp only [List.mem_append, List.mem_cons, List.mem_singleton] at hw
      rcases hw with (h | h | h | h | h) | h
      · exact (hwords w (List.mem_append_left _ h)).2.1
      · subst h
        simp only [List.mem_cons, not_or]
        exact ⟨hqsp.symm, ha.1⟩
      · exact (hmid w h).2.1
      · subst h
        simp only [List.mem_append, List.mem_singleton, not_or]
        exact ⟨hb.1, hqsp.symm⟩
      · simp at h
      · exact (hwords w (List.mem_append_right _ h)).2.1
  have h := parse_pieces _ command_split
    (before.map Piece.word ++ Piece.phrase q a mid b :: after.map Piece.word)
    (by rw [htoks]
        simp only [List.flatMap_append, List.flatMap_cons, flatMap_toks_word, Piece.toks]
        simp)
    (by intro p hp
        simp only [List.mem_append, List.mem_cons, List.mem_map] at hp
        rcases hp with ⟨w, hw, rfl⟩ | rfl | ⟨w, hw, rfl⟩
        · exact (hwords w (List.mem_append_left _ hw)).2.2
        · exact ⟨hq, ha.2, fun m hm => (hmid m hm).2.2, hb.2⟩
        · exact (hwords w (List.mem_append_right _ hw)).2.2)
    (by simp)
    (by simp only [List.length_append, List.length_map, List.length_cons]; omega)
    (by
      have hw : ∀ ws : List CStr, nphrases (ws.map Piece.word) = 0 := by
        intro ws
        induction ws with
        | nil => rfl
        | cons w ws ih => simpa [nphrases] using ih
      have happ : ∀ (ws : List CStr) (ps : List Piece),
          nphrases (ws.map Piece.word ++ ps) = nphrases ps := by
        intro ws ps
        induction ws with
        | nil => rfl
        | cons w ws ih => simpa [nphrases] using ih
      rw [happ]
      simp only [nphrases, hw]
      omega)
  simpa [Piece.merged, Piece.stripped, Function.comp_def] using h

/-- C2 at `echo "hello world"`. -/
theorem command_parser_one_phrase_witness :
    command_parser_fn (cstr "echo " ++ DQ :: cstr "hello world" ++ [DQ]) (fun _ => none) =
      some (0, [cstr "echo", DQ :: cstr "hello world" ++ [DQ]]) ∧
    strip_quotes [cstr "echo", DQ :: cstr "hello world" ++ [DQ]] =
      [cstr "echo", cstr "hello world"] :=
  command_parser_one_phrase [cstr "echo"] [] [] (cstr "hello") (cstr "world") DQ
    (fun _ => none) (Or.inr rfl) (by decide) (by decide) (by decide) (by decide) (by decide)

/-! ### Lines with a single kind of quote character -/

theorem quote_locks_sq (a : CStr) (h : DQ ∉ a) : ∀ ls : Bool,
    quote_locks ls false a = (if a.count SQ % 2 = 1 then !ls else ls, false) := by
  induction a with
  | nil => intro ls; rfl
  | cons c a ih =>
    intro ls
    have ha : DQ ∉ a := fun m => h (List.mem_cons_of_mem _ m)
    have hc : c ≠ DQ := fun e => h (e ▸ List.mem_cons_self _ _)
    unfold quote_locks
    by_cases hs : c = SQ
    · subst hs
      rw [if_pos rfl, List.count_cons_self]
      have : (if ls = true then false else (true && !false)) = !ls := by cases ls <;> rfl
      rw [this, ih ha]
      by_cases hodd : a.count SQ % 2 = 1
      · rw [if_pos hodd, if_neg (by omega)]
        simp
      · rw [if_neg hodd, if_pos (by omega)]
    · rw [if_neg hs, if_neg hc, ih ha, List.count_cons_of_ne (Ne.symm hs)]

theorem quote_locks_dq (a : CStr) (h : SQ ∉ a) : ∀ ld : Bool,
    quote_locks false ld a = (false, if a.count DQ % 2 = 1 then !ld else ld) := by
  induction a with
  | nil => intro ld; rfl
  | cons c a ih =>
    intro ld
    have ha : SQ ∉ a := fun m => h (List.mem_cons_of_mem _ m)
    have hc : c ≠ SQ := fun e => h (e ▸ List.mem_cons_self _ _)
    unfold quote_locks
    by_cases hs : c = DQ
    · subst hs
      rw [if_neg hc, if_pos rfl, List.count_cons_self]
      have : (if ld = true then false else (true && !false)) = !ld := by cases ld <;> rfl
      rw [this, ih ha]
      by_cases hodd : a.count DQ % 2 = 1
      · rw [if_pos hodd, if_neg (by omega)]
        simp
      · rw [if_neg hodd, if_pos (by omega)]
    · rw [if_neg hc, if_neg hs, ih ha, List.count_cons_of_ne (Ne.symm hs)]

theorem quote_pair_ne_sp (q other : Char) (h : quote_pair q other) : q ≠ SP ∧ other ≠ SP := by
  rcases h with ⟨rfl, rfl⟩ | ⟨rfl, rfl⟩
  · exact ⟨SQ_ne_SP, DQ_ne_SP⟩
  · exact ⟨DQ_ne_SP, SQ_ne_SP⟩

theorem quote_pair_ne_nul (q other : Char) (h : quote_pair q other) : q ≠ NUL := by
  rcases h with ⟨rfl, rfl⟩ | ⟨rfl, rfl⟩
  · exact SQ_ne_NUL
  · exact DQ_ne_NUL

/-- With one kind of quote character only, a string is balanced exactly
when that character occurs an even number of times. -/
theorem balanced_iff_even (q other : Char) (h : quote_pair q other) (a : CStr)
    (ho : other ∉ a) : quote_balanced a ↔ a.count q % 2 = 0 := by
  unfold quote_balanced
  rcases h with ⟨rfl, rfl⟩ | ⟨rfl, rfl⟩
  · rw [quote_locks_sq a ho]
    by_cases hodd : a.count SQ % 2 = 1
    · simp [hodd]
    · simp [hodd]; omega
  · rw [quote_locks_dq a ho]
    by_cases hodd : a.count DQ % 2 = 1
    · simp [hodd]
    · simp [hodd]; omega

theorem opens_eq_odd (q other : Char) (h : quote_pair q other) (a : CStr)
    (ho : other ∉ a) : opens a = decide (a.count q % 2 = 1) := by
  have hb := balanced_iff_even q other h a ho
  unfold quote_balanced at hb
  by_cases hodd : a.count q % 2 = 1
  · have hmem : q ∈ a := List.count_pos_iff.mp (by omega)
    have hq : SQ ∈ a ∨ DQ ∈ a := by
      rcases h with ⟨rfl, rfl⟩ | ⟨rfl, rfl⟩
      · exact Or.inl hmem
      · exact Or.inr hmem
    have hne : quote_locks false false a ≠ (false, false) := fun e => by
      have := hb.mp e
      omega
    have : ((quote_locks false false a).1 || (quote_locks false false a).2) = true := by
      rcases hl : quote_locks false false a with ⟨x, y⟩
      rw [hl] at hne
      cases x <;> cases y <;> simp at hne ⊢
    simp [opens, hq, this, hodd]
  · have := hb.mpr (by omega)
    simp [opens, this, hodd]

theorem check_quote_kind (q other : Char) (h : quote_pair q other) (a : CStr)
    (ho : other ∉ a) : check_quote a = if q ∈ a then q else NUL := by
  unfold check_quote
  rcases h with ⟨rfl, rfl⟩ | ⟨rfl, rfl⟩
  · by_cases hm : SQ ∈ a
    · simp [hm]
    · simp [hm, ho]
  · by_cases hm : DQ ∈ a
    · simp [hm, ho]
    · simp [hm, ho]

/-! ### Counting a character over the tokens of a line -/

theorem count_intercalate_sp (c : Char) (hc : c ≠ SP) (L : List CStr) :
    (List.intercalate [SP] L).count c = (L.map (List.count c)).sum := by
  induction L with
  | nil => simp [List.intercalate]
  | cons t L ih =>
    cases L with
    | nil => simp [List.intercalate]
    | cons y ys =>
      rw [intercalate_sp_cons_cons, List.count_append, List.count_cons_of_ne hc, ih]
      simp

theorem sum_count_filter (c : Char) (L : List CStr) :
    ((L.filter (fun r => decide (r ≠ []))).map (List.count c)).sum =
      (L.map (List.count c)).sum := by
  induction L with
  | nil => rfl
  | cons t L ih =>
    by_cases ht : t = []
    · subst ht
      rw [List.filter_cons_of_neg (by simp)]
      simpa using ih
    · rw [List.filter_cons_of_pos (by simpa using ht)]
      simp only [List.map_cons, List.sum_cons, ih]

/-- A character other than the space occurs as often in the tokens as in
the line. -/
theorem count_tokenize (line : CStr) (c : Char) (hc : c ≠ SP) :
    ((tokenize line).map (List.count c)).sum = line.count c := by
  rw [tokenize_eq_runs]
  unfold nonspace_runs
  rw [sum_count_filter, ← count_intercalate_sp c hc, List.intercalate_splitOn]

/-! ### An odd number of quote characters -/

/-- With one kind of quote character and at most one of them per token,
every token that has one toggles the `lock` flag of the scan: twice the
number of closed spans, plus one inside a span, counts the quote characters
met. -/
theorem scan_loop_count (q other : Char) (hp : quote_pair q other) :
    ∀ (T : List CStr) (st : ScanState),
      (∀ t ∈ T, other ∉ t ∧ t.count q ≤ 1) →
      (st.lock = true → st.val = q) →
      2 * st.count + (if st.lock = true then 1 else 0) + (T.map (List.count q)).sum ≤ 100 →
      ∃ st1, scan_loop st T = some st1 ∧
        2 * st1.count + (if st1.lock = true then 1 else 0) =
          2 * st.count + (if st.lock = true then 1 else 0) + (T.map (List.count q)).sum := by
  intro T
  induction T with
  | nil =>
    intro st _ _ _
    exact ⟨st, rfl, by simp⟩
  | cons t T ih =>
    intro st hT hval hbound
    have ht := hT t (List.mem_cons_self _ _)
    have hrest : ∀ x ∈ T, other ∉ x ∧ x.count q ≤ 1 :=
      fun x hx => hT x (List.mem_cons_of_mem _ hx)
    simp only [List.map_cons, List.sum_cons] at hbound ⊢
    unfold scan_loop
    by_cases hq : t.count q = 0
    · have hqm : q ∉ t := List.count_eq_zero.mp hq
      have hfree : SQ ∉ t ∧ DQ ∉ t := by
        rcases hp with ⟨rfl, rfl⟩ | ⟨rfl, rfl⟩
        · exact ⟨hqm, ht.1⟩
        · exact ⟨ht.1, hqm⟩
      have hv : st.lock = false ∨ st.val ≠ NUL := by
        cases hl : st.lock with
        | false => exact Or.inl rfl
        | true => exact Or.inr (by rw [hval hl]; exact quote_pair_ne_nul q other hp)
      rw [scan_step_plain st t hfree.1 hfree.2 hv]
      simp only []
      obtain ⟨st1, h1, h2⟩ := ih { st with i := st.i + 1 } hrest hval
        (by simp only []; omega)
      refine ⟨st1, h1, ?_⟩
      simp only [] at h2
      omega
    · have hq1 : t.count q = 1 := by have := ht.2; omega
      have hqm : q ∈ t := List.count_pos_iff.mp (by omega)
      have hcq : check_quote t = q := by
        rw [check_quote_kind q other hp t ht.1, if_pos hqm]
      cases hl : st.lock with
      | false =>
        rw [hl] at hbound
        simp only [Bool.false_eq_true, if_false] at hbound ⊢
        have hopen : opens t = true := by
          rw [opens_eq_odd q other hp t ht.1, hq1]
          rfl
        rw [scan_step_open st t hl hopen (by omega)]
        simp only []
        obtain ⟨st1, h1, h2⟩ := ih
          { st with
            lock := true
            start_idx := Function.update st.start_idx st.count (st.i : Int)
            val := check_quote t
            i := st.i + 1 } hrest (fun _ => hcq) (by simp only [if_true]; omega)
        refine ⟨st1, h1, ?_⟩
        simp only [if_true] at h2
        omega
      | true =>
        rw [hl] at hbound
        simp only [if_true] at hbound ⊢
        rw [scan_step_close st t hl (by rw [hcq, hval hl]) (by omega)]
        simp only []
        obtain ⟨st1, h1, h2⟩ := ih
          { st with
            end_idx := Function.update st.end_idx st.count (st.i : Int)
            lock := false
            count := st.count + 1
            i := st.i + 1 } hrest (fun h => by simp at h)
          (by simp only [Bool.false_eq_true, if_false]; omega)
        refine ⟨st1, h1, ?_⟩
        simp only [Bool.false_eq_true, if_false] at h2
        omega

theorem sum_count_le_length (q : Char) (T : List CStr) (h : ∀ t ∈ T, t.count q ≤ 1) :
    (T.map (List.count q)).sum ≤ T.length := by
  induction T with
  | nil => simp
  | cons t T ih =>
    have := h t (List.mem_cons_self _ _)
    have := ih (fun x hx => h x (List.mem_cons_of_mem _ hx))
    simp only [List.map_cons, List.sum_cons, List.length_cons]
    omega

/-- C3, as stated, fails: `echo "it's"` has exactly one single quote and is
accepted with status 0. -/
theorem command_parser_odd_accepted :
    (cstr "echo " ++ DQ :: cstr "it" ++ SQ :: cstr "s" ++ [DQ]).count SQ % 2 = 1 ∧
    command_parser_fn (cstr "echo " ++ DQ :: cstr "it" ++ SQ :: cstr "s" ++ [DQ])
        (fun _ => none) =
      some (0, [cstr "echo", DQ :: cstr "it" ++ SQ :: cstr "s" ++ [DQ]]) := by
  decide

/-- C3, amended: a line of at most 99 tokens on which only one kind of
quote character `q` occurs, at most once in each token and an odd number of
times in all, is rejected with -1, its tokens left unmerged. -/
theorem command_parser_odd_quotes (line : CStr) (command_split : Nat → Option CStr)
    (q other : Char) (hp : quote_pair q other) (hother : other ∉ line)
    (hone : ∀ t ∈ tokenize line, t.count q ≤ 1) (hodd : line.count q % 2 = 1)
    (hlen : (tokenize line).length ≤ 99) :
    command_parser_fn line command_split = some (-1, tokenize line) := by
  have hT : ∀ t ∈ tokenize line, other ∉ t ∧ t.count q ≤ 1 := by
    intro t ht
    exact ⟨fun h => hother ((mem_tokenize line t ht).2 other h).1, hone t ht⟩
  have hsum := count_tokenize line q (quote_pair_ne_sp q other hp).1
  have hle := sum_count_le_length q (tokenize line) hone
  obtain ⟨st1, h1, h2⟩ := scan_loop_count q other hp (tokenize line) scan_init hT
    (by intro h; simp [scan_init] at h)
    (by simp only [scan_init, Bool.false_eq_true, if_false]; omega)
  have hlock : st1.lock = true := by
    simp only [scan_init, Bool.false_eq_true, if_false] at h2
    cases hl : st1.lock with
    | true => rfl
    | false =>
      rw [hl] at h2
      simp only [Bool.false_eq_true, if_false] at h2
      omega
  exact command_parser_locked line command_split hlen ⟨st1, h1, hlock⟩

/-- C3 amended at `echo "hello world`, with a single double quote. -/
theorem command_parser_odd_quotes_witness :
    command_parser_fn (cstr "echo " ++ DQ :: cstr "hello world") (fun _ => none) =
      some (-1, [cstr "echo", DQ :: cstr "hello", cstr "world"]) :=
  command_parser_odd_quotes (cstr "echo " ++ DQ :: cstr "hello world") (fun _ => none) DQ SQ
    (Or.inr ⟨rfl, rfl⟩) (by decide) (by decide) (by decide) (by decide)

/-! ### Quote balance of the arguments -/

/-- Inside a span, a scan that ends outside a span has met a closing
token: the first token for which `check_quote` gives `val`. -/
theorem scan_decompose_locked (T : List CStr) : ∀ st st1 : ScanState, st.lock = true →
    scan_loop st T = some st1 → st1.lock = false →
    ∃ mid c rest, T = mid ++ c :: rest ∧ (∀ m ∈ mid, check_quote m ≠ st.val) ∧
      check_quote c = st.val ∧
      ∃ st2 : ScanState, st2.lock = false ∧ st2.count = st.count + 1 ∧
        scan_loop st2 rest = some st1 := by
  induction T with
  | nil =>
    intro st st1 hl hs h1
    simp only [scan_loop, Option.some.injEq] at hs
    subst hs
    rw [hl] at h1
    exact absurd h1 (by decide)
  | cons t T ih =>
    intro st st1 hl hs h1
    unfold scan_loop at hs
    by_cases hc : check_quote t = st.val
    · by_cases h50 : st.count < 50
      · rw [scan_step_close st t hl hc h50] at hs
        exact ⟨[], t, T, rfl, by simp, hc, _, rfl, rfl, hs⟩
      · rw [scan_step_close_none st t hl hc h50] at hs
        exact absurd hs (by simp)
    · rw [scan_step_mid st t hl hc] at hs
      obtain ⟨mid, c, rest, hT, hm, hcl, st2, h2, h3, h4⟩ :=
        ih { st with i := st.i + 1 } st1 hl hs h1
      refine ⟨t :: mid, c, rest, by rw [hT]; rfl, ?_, hcl, st2, h2, h3, h4⟩
      intro m hmm
      rcases List.mem_cons.mp hmm with rfl | h
      · exact hc
      · exact hm m h

/-- Every token list on which the scan ends outside a span is made of
well-formed groups, one span per recorded slot. -/
theorem scan_decompose (n : Nat) : ∀ (T : List CStr) (st st1 : ScanState), T.length ≤ n →
    st.lock = false → scan_loop st T = some st1 → st1.lock = false →
    ∃ segs : List Seg, T = segs.flatMap Seg.toks ∧ (∀ s ∈ segs, s.ok) ∧
      st1.count = st.count + nspans segs := by
  induction n with
  | zero =>
    intro T st st1 hlen _ hs _
    have : T = [] := List.length_eq_zero.mp (Nat.le_zero.mp hlen)
    subst this
    simp only [scan_loop, Option.some.injEq] at hs
    subst hs
    exact ⟨[], rfl, by simp, rfl⟩
  | succ n ih =>
    intro T st st1 hlen hl hs h1
    cases T with
    | nil =>
      simp only [scan_loop, Option.some.injEq] at hs
      subst hs
      exact ⟨[], rfl, by simp, rfl⟩
    | cons t T =>
      unfold scan_loop at hs
      simp only [List.length_cons] at hlen
      cases ho : opens t with
      | false =>
        rw [scan_step_tok st t hl ho] at hs
        obtain ⟨segs, hT, hok, hcount⟩ :=
          ih T { st with i := st.i + 1 } st1 (by omega) hl hs h1
        refine ⟨Seg.tok t :: segs, by rw [hT]; rfl, ?_, by simpa [nspans] using hcount⟩
        intro s hs
        rcases List.mem_cons.mp hs with rfl | h
        · exact ho
        · exact hok s h
      | true =>
        by_cases h50 : st.count < 50
        · rw [scan_step_open st t hl ho h50] at hs
          obtain ⟨mid, c, rest, hT, hm, hcl, st2, h2, h3, h4⟩ :=
            scan_decompose_locked T _ st1 rfl hs h1
          have hrl : rest.length ≤ n := by
            have := congrArg List.length hT
            simp only [List.length_append, List.length_cons] at this
            omega
          obtain ⟨segs, hR, hok, hcount⟩ := ih rest st2 st1 hrl h2 h4 h1
          refine ⟨Seg.span t mid c :: segs, ?_, ?_, ?_⟩
          · rw [hT, hR]
            simp [Seg.toks]
          · intro s hs
            rcases List.mem_cons.mp hs with rfl | h
            · exact ⟨ho, hm, hcl⟩
            · exact hok s h
          · simp only [] at h3
            simp only [nspans]
            omega
        · rw [scan_step_open_none st t hl ho h50] at hs
          exact absurd hs (by simp)

theorem sum_map_zero (f : CStr → Nat) (L : List CStr) (h : ∀ t ∈ L, f t = 0) :
    (L.map f).sum = 0 := by
  induction L with
  | nil => rfl
  | cons t L ih =>
    simp only [List.map_cons, List.sum_cons, h t (List.mem_cons_self _ _),
      ih (fun x hx => h x (List.mem_cons_of_mem _ hx))]

/-- A well-formed group whose tokens hold one kind of quote character, at
most once each, stands for a quote-balanced argument. -/
theorem seg_arg_balanced (q other : Char) (hp : quote_pair q other) (s : Seg) (hok : s.ok)
    (hT : ∀ t ∈ s.toks, other ∉ t ∧ t.count q ≤ 1) : quote_balanced s.arg := by
  cases s with
  | tok t =>
    have ht := hT t (by simp [Seg.toks])
    have ho : opens t = false := hok
    rw [opens_eq_odd q other hp t ht.1] at ho
    rw [Seg.arg, balanced_iff_even q other hp t ht.1]
    have : ¬ t.count q % 2 = 1 := by simpa using ho
    omega
  | span o mid c =>
    obtain ⟨hopen, hmid, hclose⟩ := hok
    have hto := hT o (by simp [Seg.toks])
    have htc := hT c (by simp [Seg.toks])
    have htm : ∀ m ∈ mid, other ∉ m ∧ m.count q ≤ 1 := fun m hm => hT m (by simp [Seg.toks, hm])
    rw [opens_eq_odd q other hp o hto.1] at hopen
    have ho1 : o.count q = 1 := by
      have : o.count q % 2 = 1 := by simpa using hopen
      have := hto.2
      omega
    have hqo : q ∈ o := List.count_pos_iff.mp (by omega)
    have hcqo : check_quote o = q := by rw [check_quote_kind q other hp o hto.1, if_pos hqo]
    have hc1 : c.count q = 1 := by
      have hqc : q ∈ c := by
        by_contra hn
        rw [check_quote_kind q other hp c htc.1, if_neg hn, hcqo] at hclose
        exact quote_pair_ne_nul q other hp hclose.symm
      have : 0 < c.count q := List.count_pos_iff.mpr hqc
      have := htc.2
      omega
    have hm0 : ∀ m ∈ mid, m.count q = 0 := by
      intro m hm
      rw [List.count_eq_zero]
      intro hqm
      have := hmid m hm
      rw [check_quote_kind q other hp m (htm m hm).1, if_pos hqm, hcqo] at this
      exact this rfl
    have hne := quote_pair_ne_sp q other hp
    have hother : other ∉ List.intercalate [SP] (o :: (mid ++ [c])) := by
      rw [← List.count_eq_zero, count_intercalate_sp other hne.2]
      apply sum_map_zero
      intro t ht
      rw [List.count_eq_zero]
      exact (hT t ht).1
    rw [Seg.arg, balanced_iff_even q other hp _ hother, count_intercalate_sp q hne.1]
    simp only [List.map_cons, List.map_append, List.sum_cons, List.sum_append, List.map_nil,
      List.sum_nil, sum_map_zero _ mid hm0, ho1, hc1]
    rfl

/-- C9, as stated, fails: the line made of one single quote, a space and two
single quotes is accepted with status 0 and its only argument, the three
tokens merged, ends inside an open single quote. -/
theorem command_parser_unbalanced_arg :
    command_parser_fn [SQ, SP, SQ, SQ] (fun _ => none) = some (0, [[SQ, SP, SQ, SQ]]) ∧
    ¬ quote_balanced [SQ, SP, SQ, SQ] := by
  decide

/-- C9, amended: when only one kind of quote character `q` occurs on the
line, at most once in each token and at most four times in all (at most two
spans), every argument of a parse that returns 0 is quote-balanced. -/
theorem command_parser_args_balanced (line : CStr) (command_split : Nat → Option CStr)
    (args : List CStr) (q other : Char)
    (h0 : command_parser_fn line command_split = some (0, args))
    (hp : quote_pair q other) (hother : other ∉ line)
    (hone : ∀ t ∈ tokenize line, t.count q ≤ 1) (hfour : line.count q ≤ 4) :
    ∀ a ∈ args, quote_balanced a := by
  by_cases hne : tokenize line = []
  · have hargs : args = [] := by
      unfold command_parser_fn at h0
      rw [hne] at h0
      simp only [store, List.getElem?_nil, List.length_nil, quote_concat_ll_nil] at h0
      split at h0
      · simp at h0
      · split at h0
        · simp at h0
        · simp only [Nat.not_lt_zero, gt_iff_lt, if_false, Option.some.injEq,
            Prod.mk.injEq] at h0
          split at h0
          · simp at h0
          · simp only [Option.some.injEq, Prod.mk.injEq, true_and] at h0
            exact h0.symm
    subst hargs
    intro a ha
    simp at ha
  · have hT : ∀ t ∈ tokenize line, other ∉ t ∧ t.count q ≤ 1 := by
      intro t ht
      exact ⟨fun h => hother ((mem_tokenize line t ht).2 other h).1, hone t ht⟩
    have hsum := count_tokenize line q (quote_pair_ne_sp q other hp).1
    obtain ⟨st1, h1, h2⟩ := scan_loop_count q other hp (tokenize line) scan_init hT
      (by intro h; simp [scan_init] at h)
      (by simp only [scan_init, Bool.false_eq_true, if_false]; omega)
    simp only [scan_init, Bool.false_eq_true, if_false] at h2
    have hlock : st1.lock = false := by
      cases hl : st1.lock with
      | false => rfl
      | true =>
        exfalso
        rw [command_parser_of_tokens line command_split hne,
          (quote_concat_ll_minus_one _ _ _).mpr ⟨⟨st1, h1, hl⟩, rfl⟩] at h0
        simp only [] at h0
        split at h0
        · simp at h0
        · simp at h0
    obtain ⟨segs, hsegs, hok, hcount⟩ :=
      scan_decompose _ (tokenize line) scan_init st1 (Nat.le_refl _) rfl h1 hlock
    have hn : nspans segs ≤ 2 := by
      rw [hlock] at h2
      simp only [scan_init, Bool.false_eq_true, if_false] at h2 hcount
      omega
    rw [command_parser_of_tokens line command_split hne, hsegs,
      quote_concat_ll_segs segs _ hok hn] at h0
    simp only [] at h0
    have hargs : args = segs.map Seg.arg := by
      split at h0
      · simp at h0
      · rw [if_neg (by decide)] at h0
        simp only [Option.some.injEq, Prod.mk.injEq, true_and] at h0
        exact h0.symm
    subst hargs
    intro a ha
    obtain ⟨s, hs, rfl⟩ := List.mem_map.mp ha
    apply seg_arg_balanced q other hp s (hok s hs)
    intro t ht
    apply hT
    rw [hsegs]
    exact List.mem_flatMap.mpr ⟨s, hs, ht⟩

/-- C9 amended at `echo "hello world"`: both arguments are balanced. -/
theorem command_parser_args_balanced_witness :
    command_parser_fn (cstr "echo " ++ DQ :: cstr "hello world" ++ [DQ]) (fun _ => none) =
      some (0, [cstr "echo", DQ :: cstr "hello world" ++ [DQ]]) ∧
    quote_balanced (cstr "echo") ∧ quote_balanced (DQ :: cstr "hello world" ++ [DQ]) :=
  ⟨by decide,
   command_parser_args_balanced (cstr "echo " ++ DQ :: cstr "hello world" ++ [DQ])
     (fun _ => none) [cstr "echo", DQ :: cstr "hello world" ++ [DQ]] DQ SQ
     (by decide) (Or.inr ⟨rfl, rfl⟩) (by decide) (by decide) (by decide)
     (cstr "echo") (List.mem_cons_self _ _),
   command_parser_args_balanced (cstr "echo " ++ DQ :: cstr "hello world" ++ [DQ])
     (fun _ => none) [cstr "echo", DQ :: cstr "hello world" ++ [DQ]] DQ SQ
     (by decide) (Or.inr ⟨rfl, rfl⟩) (by decide) (by decide) (by decide)
     (DQ :: cstr "hello world" ++ [DQ]) (List.mem_cons_of_mem _ (List.mem_cons_self _ _))⟩

/-! ### The empty line -/

/-- C11, as stated, fails: on the empty string `command_parser` returns -1,
not -3, and the read loop reacts to -1 without any diagnostic. -/
theorem command_parser_empty_not_minus_three :
    command_parser_fn [] (fun _ => none) = some (-1, []) ∧
    command_parser_fn [] (fun _ => none) ≠ some (-3, []) ∧
    call_cmd_reaction (-1) = Reaction.silent := by
  decide

/-- C11, amended: on the empty string `command_parser` returns -1 at its
first statement, whatever the caller's array holds and without storing a
token, and the read loop then goes on to the next prompt without printing a
diagnostic; the empty-input diagnostic is the reaction to -3 only. -/
theorem command_parser_empty :
    (∀ command_split : Nat → Option CStr,
      command_parser_fn [] command_split = some (-1, [])) ∧
    call_cmd_reaction (-1) = Reaction.silent ∧
    (∀ res : Int,
      call_cmd_reaction res = Reaction.diagnostic
          " Command entered with spaces only. Please input a valid command." ↔
        res = -3) := by
  refine ⟨fun _ => rfl, rfl, ?_⟩
  intro res
  unfold call_cmd_reaction
  constructor
  · intro h
    split at h
    · exact absurd h (by decide)
    · split at h
      · exact absurd h (by decide)
      · split at h
        · assumption
        · exact absurd h (by decide)
  · intro h
    subst h
    decide

/-! ### invoke_cmd -/

/-- C12, as stated, fails: for `cd ""` the second argument is stripped to
the empty string, which is reported as invalid; no directory is changed. -/
theorem invoke_cmd_cd_empty :
    invoke_cmd [cstr "cd", [DQ, DQ]] = some Action.cd_invalid ∧
    invoke_cmd [cstr "cd", [DQ, DQ]] ≠ some (Action.chdir []) := by
  decide

/-- C12, amended: on a non-empty argument list `invoke_cmd` strips the
quotes and then: first argument `exit` terminates with success; `cd` without
a second argument does nothing; `cd` with an empty second argument reports an
invalid argument and changes no directory; `cd` with a non-empty second
argument changes to exactly that argument; anything else spawns the program
with the whole stripped argument vector. A process is spawned exactly when
the first stripped argument is neither `exit` nor `cd`. -/
theorem invoke_cmd_spec (a0 : CStr) (rest : List CStr) :
    invoke_cmd (a0 :: rest) =
      (if strip_one a0 = cstr "exit" then some Action.exit_success
       else if strip_one a0 = cstr "cd" then
         match strip_quotes rest with
         | [] => some Action.nothing
         | a1 :: _ => if a1 = [] then some Action.cd_invalid else some (Action.chdir a1)
       else some (Action.spawn (strip_quotes (a0 :: rest)))) ∧
    ((∃ argv, invoke_cmd (a0 :: rest) = some (Action.spawn argv)) ↔
      (strip_one a0 ≠ cstr "exit" ∧ strip_one a0 ≠ cstr "cd")) := by
  have h : invoke_cmd (a0 :: rest) =
      (if strip_one a0 = cstr "exit" then some Action.exit_success
       else if strip_one a0 = cstr "cd" then
         match strip_quotes rest with
         | [] => some Action.nothing
         | a1 :: _ => if a1 = [] then some Action.cd_invalid else some (Action.chdir a1)
       else some (Action.spawn (strip_quotes (a0 :: rest)))) := by
    simp only [invoke_cmd, strip_quotes]
    split
    · rfl
    · split
      · cases hr : strip_quotes rest with
        | nil => rfl
        | cons a1 tl =>
          simp only []
          cases a1 with
          | nil => simp
          | cons c cs => simp
      · rfl
  refine ⟨h, ?_⟩
  rw [h]
  by_cases h1 : strip_one a0 = cstr "exit"
  · simp [h1]
  · by_cases h2 : strip_one a0 = cstr "cd"
    · rw [if_neg h1, if_pos h2]
      constructor
      · rintro ⟨argv, hspawn⟩
        exfalso
        cases hr : strip_quotes rest with
        | nil => rw [hr] at hspawn; simp at hspawn
        | cons a1 tl =>
          rw [hr] at hspawn
          simp only [] at hspawn
          split at hspawn <;> simp at hspawn
      · intro hne
        exact absurd h2 hne.2
    · rw [if_neg h1, if_neg h2]
      simp [h1, h2]

/-! ### concatenate_quotes on a valid range -/

theorem split_at_range (L : List CStr) (i f : Nat) (hif : i ≤ f) (hf : f < L.length) :
    ∃ t : CStr, L = L.take i ++ t :: ((L.drop (i + 1)).take (f - i) ++ L.drop (f + 1)) ∧
      (L.drop i).take (f - i + 1) = t :: (L.drop (i + 1)).take (f - i) ∧
      ((L.drop (i + 1)).take (f - i)).length = f - i := by
  have hi : i < L.length := by omega
  refine ⟨L[i], ?_, ?_, ?_⟩
  · have h1 : L.drop i = L[i] :: L.drop (i + 1) := List.drop_eq_getElem_cons hi
    have h2 : (L.drop (i + 1)).take (f - i) ++ L.drop (f + 1) = L.drop (i + 1) := by
      have := List.take_append_drop (f - i) (L.drop (i + 1))
      rw [List.drop_drop] at this
      have e : i + 1 + (f - i) = f + 1 := by omega
      rw [e] at this
      exact this
    rw [h2, ← h1, List.take_append_drop]
  · rw [List.drop_eq_getElem_cons hi, List.take_succ_cons]
  · rw [List.length_take, List.length_drop]
    omega

/-- C17: for `0 ≤ i ≤ f < length L`, `concatenate_quotes(L, i, f)` returns
`f - i` and leaves `L[0..i)`, then the single string of `L[i] .. L[f]` joined
by single spaces, then `L[f+1..)`; the length drops by `f - i`; and the loop
ends whatever bound of at least `length L` passes it is given. -/
theorem concatenate_quotes_spec (L : List CStr) (i f : Nat) (hif : i ≤ f)
    (hf : f < L.length) :
    concatenate_quotes L (i : Int) (f : Int) =
      some (L.take i ++ List.intercalate [SP] ((L.drop i).take (f - i + 1)) :: L.drop (f + 1),
            ((f - i : Nat) : Int)) ∧
    (L.take i ++ List.intercalate [SP] ((L.drop i).take (f - i + 1)) :: L.drop (f + 1)).length +
        (f - i) = L.length ∧
    (∀ fuel : Nat, L.length ≤ fuel →
      concat_loop fuel L (i : Int) (f : Int) 0 = concatenate_quotes L (i : Int) (f : Int)) := by
  obtain ⟨t, hL, htake, hlen⟩ := split_at_range L i f hif hf
  have hpre : (L.take i).length = i := by
    rw [List.length_take]
    omega
  refine ⟨?_, ?_, ?_⟩
  · have h := concatenate_quotes_range (L.take i) (L.drop (f + 1))
      ((L.drop (i + 1)).take (f - i)) t (i : Int) (f : Int)
      (by rw [hpre]) (by rw [hpre, hlen]; omega)
    rw [← hL] at h
    rw [h, htake, hlen]
  · simp only [List.length_append, List.length_cons, List.length_take, List.length_drop]
    omega
  · intro fuel hfuel
    exact concat_loop_fuel fuel L _ _ _ hfuel

/-- C17 at the tokens `echo`, `"a`, `b`, `c"`, `d` with `i = 1`, `f = 3`. -/
theorem concatenate_quotes_spec_witness :
    concatenate_quotes
        [cstr "echo", DQ :: cstr "a", cstr "b", cstr "c" ++ [DQ], cstr "d"] 1 3 =
      some ([cstr "echo", DQ :: cstr "a b c" ++ [DQ], cstr "d"], 2) :=
  (concatenate_quotes_spec
    [cstr "echo", DQ :: cstr "a", cstr "b", cstr "c" ++ [DQ], cstr "d"] 1 3
    (by decide) (by decide)).1.trans (by decide)

/-! ### Merging only regroups the tokens -/

theorem intercalate_merge_at (post : List CStr) (t y : CStr) : ∀ pre : List CStr,
    List.intercalate [SP] (pre ++ (t ++ SP :: y) :: post) =
      List.intercalate [SP] (pre ++ t :: y :: post) := by
  intro pre
  induction pre with
  | nil => exact intercalate_sp_merge t y post
  | cons p pre ih =>
    cases pre with
    | nil =>
      simp only [List.cons_append, List.nil_append] at ih ⊢
      rw [intercalate_sp_cons_cons, intercalate_sp_cons_cons, ih]
    | cons p2 pre2 =>
      simp only [List.cons_append] at ih ⊢
      rw [intercalate_sp_cons_cons, intercalate_sp_cons_cons p, ih]

theorem concat_step_join (are are1 : List CStr) (i : Int)
    (h : concat_step are i = some are1) :
    List.intercalate [SP] are1 = List.intercalate [SP] are := by
  cases i with
  | ofNat k =>
    simp only [concat_step] at h
    cases h0 : are[k]? with
    | none => rw [h0] at h; simp at h
    | some cur =>
      cases h1 : are[k + 1]? with
      | none => rw [h0, h1] at h; simp at h
      | some next =>
        rw [h0, h1] at h
        simp only [Option.some.injEq] at h
        subst h
        have hk1 : k + 1 < are.length := by
          rcases Nat.lt_or_ge (k + 1) are.length with hlt | hge
          · exact hlt
          · rw [List.getElem?_eq_none hge] at h1
            exact absurd h1 (by simp)
        have hk : k < are.length := by omega
        have e0 : are[k] = cur := by
          rw [List.getElem?_eq_getElem hk] at h0
          exact Option.some.inj h0
        have e1 : are[k + 1] = next := by
          rw [List.getElem?_eq_getElem hk1] at h1
          exact Option.some.inj h1
        have hsplit : are = are.take k ++ cur :: next :: are.drop (k + 2) := by
          conv_lhs => rw [← List.take_append_drop k are]
          rw [List.drop_eq_getElem_cons hk, List.drop_eq_getElem_cons hk1, e0, e1]
        rw [intercalate_merge_at]
        rw [← hsplit]
  | negSucc k => simp [concat_step] at h

theorem concat_loop_join (fuel : Nat) : ∀ (are are1 : List CStr) (i f red r : Int),
    concat_loop fuel are i f red = some (are1, r) →
    List.intercalate [SP] are1 = List.intercalate [SP] are := by
  induction fuel with
  | zero =>
    intro are are1 i f red r h
    unfold concat_loop at h
    split at h
    · simp only [Option.some.injEq, Prod.mk.injEq] at h
      rw [h.1]
    · simp at h
  | succ fuel ih =>
    intro are are1 i f red r h
    unfold concat_loop at h
    split at h
    · simp only [Option.some.injEq, Prod.mk.injEq] at h
      rw [h.1]
    · cases hs : concat_step are i with
      | none => rw [hs] at h; simp at h
      | some are2 =>
        rw [hs] at h
        simp only [] at h
        rw [ih are2 are1 i (f - 1) (red + 1) r h, concat_step_join are are2 i hs]

theorem merge_loop_join (S E : Nat → Int) (n : Nat) :
    ∀ (ptr : Nat) (r : Int) (cmd cmd1 : List CStr),
      merge_loop S E n ptr r cmd = some cmd1 →
      List.intercalate [SP] cmd1 = List.intercalate [SP] cmd := by
  induction n with
  | zero =>
    intro ptr r cmd cmd1 h
    simp only [merge_loop, Option.some.injEq] at h
    rw [h]
  | succ n ih =>
    intro ptr r cmd cmd1 h
    unfold merge_loop at h
    split at h
    · simp only [Option.some.injEq] at h
      rw [h]
    · cases hc : concatenate_quotes cmd (S ptr - r) (E ptr - r) with
      | none => rw [hc] at h; simp at h
      | some res =>
        obtain ⟨cmd2, r2⟩ := res
        rw [hc] at h
        simp only [] at h
        rw [ih (ptr + 1) r2 cmd2 cmd1 h]
        exact concat_loop_join _ cmd cmd2 _ _ _ r2 hc

theorem quote_concat_ll_join (cmd out : List CStr) (n : Nat) (status : Int)
    (h : quote_concat_ll cmd n = some (status, out)) :
    List.intercalate [SP] out = List.intercalate [SP] cmd := by
  unfold quote_concat_ll at h
  cases hs : scan_loop scan_init cmd with
  | none => rw [hs] at h; simp at h
  | some st =>
    rw [hs] at h
    simp only [] at h
    split at h
    · simp only [Option.some.injEq, Prod.mk.injEq] at h
      rw [h.2]
    · cases hm : merge_loop st.start_idx st.end_idx st.count 0 0 cmd with
      | none => rw [hm] at h; simp at h
      | some cmd1 =>
        rw [hm] at h
        simp only [Option.some.injEq, Prod.mk.injEq] at h
        rw [← h.2]
        exact merge_loop_join _ _ _ _ _ _ _ hm

/-- C20: whenever `command_parser` returns 0, the arguments joined by single
spaces are the tokens of the space split joined by single spaces. -/
theorem command_parser_join (line : CStr) (command_split : Nat → Option CStr)
    (args : List CStr) (h : command_parser_fn line command_split = some (0, args)) :
    List.intercalate [SP] args = List.intercalate [SP] (tokenize line) := by
  unfold command_parser_fn at h
  split at h
  · simp at h
  · simp only [] at h
    split at h
    · simp at h
    · cases hq : quote_concat_ll (tokenize line) (tokenize line).length with
      | none => rw [hq] at h; simp at h
      | some res =>
        obtain ⟨status, out⟩ := res
        rw [hq] at h
        simp only [] at h
        have hout := quote_concat_ll_join _ _ _ _ hq
        split at h
        · simp at h
        · split at h
          · simp at h
          · simp only [Option.some.injEq, Prod.mk.injEq, true_and] at h
            rw [← h]
            exact hout

/-- C20 at a line with three quoted phrases, where the third merge is
misplaced: the four arguments still spell the seven tokens. -/
theorem command_parser_join_witness :
    List.intercalate [SP]
        [DQ :: cstr "a b" ++ [DQ], DQ :: cstr "c d" ++ [DQ], DQ :: cstr "e",
         cstr "f" ++ DQ :: cstr " g"] =
      List.intercalate [SP]
        [DQ :: cstr "a", cstr "b" ++ [DQ], DQ :: cstr "c", cstr "d" ++ [DQ], DQ :: cstr "e",
         cstr "f" ++ [DQ], cstr "g"] :=
  (command_parser_join
    (DQ :: cstr "a b" ++ DQ :: SP :: DQ :: cstr "c d" ++ DQ :: SP :: DQ :: cstr "e f" ++
      DQ :: cstr " g")
    (fun _ => none)
    [DQ :: cstr "a b" ++ [DQ], DQ :: cstr "c d" ++ [DQ], DQ :: cstr "e",
      cstr "f" ++ DQ :: cstr " g"]
    (by decide!)).trans (by decide)

/-! ### Which tokens open a span -/

theorem quote_locks_flags (tok : CStr) : ∀ s : QuoteState,
    quote_locks s.flags.1 s.flags.2 tok = (tok.foldl quote_state_step s).flags := by
  induction tok with
  | nil => intro s; rfl
  | cons c tok ih =>
    intro s
    simp only [List.foldl_cons]
    rw [← ih, quote_locks]
    by_cases h1 : c = SQ
    · subst h1
      cases s <;> simp [QuoteState.flags, quote_state_step, SQ_ne_DQ]
    · by_cases h2 : c = DQ
      · subst h2
        cases s <;> simp [QuoteState.flags, quote_state_step, SQ_ne_DQ.symm]
      · cases s <;> simp [QuoteState.flags, quote_state_step, h1, h2]

theorem quote_locks_eq_flags (tok : CStr) :
    quote_locks false false tok = (quote_state_after tok).flags :=
  quote_locks_flags tok QuoteState.outside

theorem quote_state_free (tok : CStr) (h : quote_free tok) :
    quote_state_after tok = QuoteState.outside := by
  have h1 := quote_locks_eq_flags tok
  rw [quote_locks_free tok h] at h1
  cases hs : quote_state_after tok with
  | outside => rfl
  | in_single => rw [hs] at h1; simp [QuoteState.flags] at h1
  | in_double => rw [hs] at h1; simp [QuoteState.flags] at h1

/-- The test of lines 109-121 is the reading of the spec: a token met
outside a span opens one exactly when its reading ends inside a quote. -/
theorem opens_eq_ends_open (tok : CStr) : opens tok = ends_open tok := by
  unfold opens ends_open
  rw [quote_locks_eq_flags]
  by_cases hq : SQ ∈ tok ∨ DQ ∈ tok
  · cases hs : quote_state_after tok <;> simp [QuoteState.flags, hq]
  · have hfree : quote_free tok := ⟨fun h => hq (Or.inl h), fun h => hq (Or.inr h)⟩
    rw [quote_state_free tok hfree]
    simp [hq]

/-- For a token met outside a span, with a free slot in the index arrays,
the scan opens a span, recording the token's index, exactly when the
left-to-right reading of the token ends with a quote open, and otherwise only
moves on to the next token. With one kind of quote character in the token
this means an odd number of them, and a token without a quote character never
opens a span. -/
theorem scan_step_free_slot (st : ScanState) (tok : CStr) (hl : st.lock = false)
    (h50 : st.count < 50) :
    scan_step st tok =
      (if ends_open tok = true then
        some { st with
          lock := true
          start_idx := Function.update st.start_idx st.count (st.i : Int)
          val := check_quote tok
          i := st.i + 1 }
       else some { st with i := st.i + 1 }) ∧
    ((∃ st1, scan_step st tok = some st1 ∧ st1.lock = true) ↔ ends_open tok = true) ∧
    (∀ q other : Char, quote_pair q other → other ∉ tok →
      (ends_open tok = true ↔ tok.count q % 2 = 1)) ∧
    (quote_free tok → ends_open tok = false) := by
  have hstep : scan_step st tok =
      (if ends_open tok = true then
        some { st with
          lock := true
          start_idx := Function.update st.start_idx st.count (st.i : Int)
          val := check_quote tok
          i := st.i + 1 }
       else some { st with i := st.i + 1 }) := by
    cases ho : ends_open tok with
    | true =>
      rw [if_pos rfl]
      exact scan_step_open st tok hl (by rw [opens_eq_ends_open, ho]) h50
    | false =>
      rw [if_neg (by decide)]
      exact scan_step_tok st tok hl (by rw [opens_eq_ends_open, ho])
  refine ⟨hstep, ?_, ?_, ?_⟩
  · rw [hstep]
    cases ho : ends_open tok with
    | true => simp
    | false => simp [hl]
  · intro q other hp hother
    rw [← opens_eq_ends_open, opens_eq_odd q other hp tok hother]
    simp
  · intro hfree
    rw [← opens_eq_ends_open]
    exact opens_free tok hfree

/-- The token `"it's` opens a span, the token `'it's` does not. -/
theorem scan_step_free_slot_examples :
    (∃ st1, scan_step scan_init (DQ :: cstr "it" ++ SQ :: cstr "s") = some st1 ∧
      st1.lock = true) ∧
    scan_step scan_init (SQ :: cstr "it" ++ SQ :: cstr "s") =
      some { scan_init with i := scan_init.i + 1 } :=
  ⟨(scan_step_free_slot scan_init (DQ :: cstr "it" ++ SQ :: cstr "s") rfl
      (by decide)).2.1.mpr (by decide),
   (scan_step_free_slot scan_init (SQ :: cstr "it" ++ SQ :: cstr "s") rfl
      (by decide)).1.trans (by rw [if_neg (by decide)])⟩

/-- Outside a span, whatever the number of spans recorded: a token whose
reading ends outside any quote is skipped; a token whose reading ends with a
quote open takes the opening branch, which writes `start_idx[count]` and so
has a defined result only for `count < 50`. -/
theorem scan_step_unlocked (st : ScanState) (tok : CStr) (hl : st.lock = false) :
    scan_step st tok =
      (if ends_open tok = true then
        (if st.count < 50 then
          some { st with
            lock := true
            start_idx := Function.update st.start_idx st.count (st.i : Int)
            val := check_quote tok
            i := st.i + 1 }
         else none)
       else some { st with i := st.i + 1 }) := by
  cases ho : ends_open tok with
  | true =>
    rw [if_pos rfl]
    by_cases h50 : st.count < 50
    · rw [if_pos h50]
      exact scan_step_open st tok hl (by rw [opens_eq_ends_open, ho]) h50
    · rw [if_neg h50]
      exact scan_step_open_none st tok hl (by rw [opens_eq_ends_open, ho]) h50
  | false =>
    rw [if_neg (by decide)]
    exact scan_step_tok st tok hl (by rw [opens_eq_ends_open, ho])

/-- C16 fails on the code: the test that decides whether a token met outside
a span opens one is the reading of the claim (a quote toggles its own kind
unless the other kind is open; odd parity for one kind; never for a token
without a quote), and a token that does not open a span is always skipped.
But a token that does open one is recorded with `start_idx[count] = i`
whatever `count` is: after the 100 tokens of 50 spans the scan is outside a
span with `count = 50`, and the next token `"`, whose reading ends open, has
no slot to be recorded in. -/
theorem scan_step_outside_span :
    (∀ (st : ScanState) (tok : CStr), st.lock = false →
      scan_step st tok =
        (if ends_open tok = true then
          (if st.count < 50 then
            some { st with
              lock := true
              start_idx := Function.update st.start_idx st.count (st.i : Int)
              val := check_quote tok
              i := st.i + 1 }
           else none)
         else some { st with i := st.i + 1 })) ∧
    (∀ (q other : Char) (tok : CStr), quote_pair q other → other ∉ tok →
      (ends_open tok = true ↔ tok.count q % 2 = 1)) ∧
    (∀ tok : CStr, quote_free tok → ends_open tok = false) ∧
    (scan_loop scan_init (List.replicate 100 [DQ])).map
        (fun st => (st.lock, st.count)) = some (false, 50) ∧
    ends_open [DQ] = true ∧
    ((scan_loop scan_init (List.replicate 100 [DQ])).bind
        (fun st => scan_step st [DQ])).isNone = true := by
  refine ⟨scan_step_unlocked, ?_, ?_, by decide!, by decide, by decide!⟩
  · intro q other tok hp hother
    rw [← opens_eq_ends_open, opens_eq_odd q other hp tok hother]
    simp
  · intro tok hfree
    rw [← opens_eq_ends_open]
    exact opens_free tok hfree

/-! ### The indices handed to concatenate_quotes -/

/-- C13 fails on the code: on the seven tokens of `"a b" "c d" "e f" g` the
scan records the spans (0,1), (2,3), (4,5); the first two merges remove one
token each, so the third span lies at (2,3), but the loop hands (3,4) to
`concatenate_quotes`, having subtracted the last merge only. The third phrase
stays split and `f"` is merged with `g`. Without the trailing word the third
call runs past the end of the array. -/
theorem merge_loop_third_span_misplaced :
    recorded3 [DQ :: cstr "a", cstr "b" ++ [DQ], DQ :: cstr "c", cstr "d" ++ [DQ],
        DQ :: cstr "e", cstr "f" ++ [DQ], cstr "g"] =
      some (3, (0, 1), (2, 3), (4, 5)) ∧
    quote_concat_calls [DQ :: cstr "a", cstr "b" ++ [DQ], DQ :: cstr "c", cstr "d" ++ [DQ],
        DQ :: cstr "e", cstr "f" ++ [DQ], cstr "g"] =
      [(0, 1), (2 - 1, 3 - 1), (4 - 1, 5 - 1)] ∧
    ((4 : Int) - 1, (5 : Int) - 1) ≠ (4 - (1 + 1), 5 - (1 + 1)) ∧
    command_parser_fn
        (DQ :: cstr "a b" ++ DQ :: SP :: DQ :: cstr "c d" ++ DQ :: SP :: DQ :: cstr "e f" ++
          DQ :: cstr " g") (fun _ => none) =
      some (0, [DQ :: cstr "a b" ++ [DQ], DQ :: cstr "c d" ++ [DQ], DQ :: cstr "e",
        cstr "f" ++ DQ :: cstr " g"]) ∧
    command_parser_fn
        (DQ :: cstr "a b" ++ DQ :: SP :: DQ :: cstr "c d" ++ DQ :: SP :: DQ :: cstr "e f" ++
          [DQ]) (fun _ => none) = none := by
  decide!

/-! ### The remembered quote character -/

theorem check_quote_eq_sq (tok : CStr) : check_quote tok = SQ ↔ SQ ∈ tok := by
  unfold check_quote
  by_cases h1 : SQ ∈ tok
  · simp [h1]
  · by_cases h2 : DQ ∈ tok
    · simp [h1, h2, SQ_ne_DQ.symm]
    · simp [h1, h2, SQ_ne_NUL.symm]

theorem check_quote_eq_dq (tok : CStr) : check_quote tok = DQ ↔ (DQ ∈ tok ∧ SQ ∉ tok) := by
  unfold check_quote
  by_cases h1 : SQ ∈ tok
  · simp [h1, SQ_ne_DQ]
  · by_cases h2 : DQ ∈ tok
    · simp [h1, h2]
    · simp [h1, h2, DQ_ne_NUL.symm]

/-- C14 fails on the code: inside a span the closing test is
`check_quote(token) == val`, and `check_quote` answers with the single quote
whenever the token has one. With the single quote remembered a token closes
the span exactly when it holds a single quote; with the double quote
remembered it closes the span only if it holds a double quote and no single
quote. So `it's"` does not close the span opened by `"a`, and the line
`echo "a it's"` is rejected with -1. -/
theorem scan_close_test :
    (∀ (st st1 : ScanState) (tok : CStr), st.lock = true → scan_step st tok = some st1 →
      (st1.lock = false ↔ check_quote tok = st.val)) ∧
    (∀ tok : CStr, check_quote tok = SQ ↔ SQ ∈ tok) ∧
    (∀ tok : CStr, check_quote tok = DQ ↔ (DQ ∈ tok ∧ SQ ∉ tok)) ∧
    (scan_loop scan_init [cstr "echo", DQ :: cstr "a", cstr "it" ++ SQ :: cstr "s" ++ [DQ]]).map
        (fun st => (st.lock, st.val, st.count)) = some (true, DQ, 0) ∧
    command_parser_fn (cstr "echo " ++ DQ :: cstr "a it" ++ SQ :: cstr "s" ++ [DQ])
        (fun _ => none) =
      some (-1, [cstr "echo", DQ :: cstr "a", cstr "it" ++ SQ :: cstr "s" ++ [DQ]]) := by
  refine ⟨?_, check_quote_eq_sq, check_quote_eq_dq, by decide, by decide⟩
  intro st st1 tok hl hstep
  by_cases h : check_quote tok = st.val
  · by_cases h50 : st.count < 50
    · rw [scan_step_close st tok hl h h50] at hstep
      simp only [Option.some.injEq] at hstep
      subst hstep
      simp [h]
    · rw [scan_step_close_none st tok hl h h50] at hstep
      exact absurd hstep (by simp)
  · rw [scan_step_mid st tok hl h] at hstep
    simp only [Option.some.injEq] at hstep
    subst hstep
    simp [h, hl]

/-- C15 fails on the code: the token `"it's` ends inside a double quote
(`lock_double` is set, `lock_single` is not), yet the character remembered is
`check_quote` of the token, the single quote. The closing token `ok"` is then
not recognised and the balanced line `echo "it's ok"` is rejected with -1. -/
theorem scan_open_val :
    quote_locks false false (DQ :: cstr "it" ++ SQ :: cstr "s") = (false, true) ∧
    (scan_step scan_init (DQ :: cstr "it" ++ SQ :: cstr "s")).map
        (fun st => (st.lock, st.val)) = some (true, SQ) ∧
    (∀ (st st1 : ScanState) (tok : CStr), st.lock = false → scan_step st tok = some st1 →
      st1.lock = true → st1.val = check_quote tok) ∧
    command_parser_fn (cstr "echo " ++ DQ :: cstr "it" ++ SQ :: cstr "s ok" ++ [DQ])
        (fun _ => none) =
      some (-1, [cstr "echo", DQ :: cstr "it" ++ SQ :: cstr "s", cstr "ok" ++ [DQ]]) := by
  refine ⟨by decide, by decide, ?_, by decide⟩
  intro st st1 tok hl hstep hl1
  cases ho : opens tok with
  | true =>
    by_cases h50 : st.count < 50
    · rw [scan_step_open st tok hl ho h50] at hstep
      simp only [Option.some.injEq] at hstep
      subst hstep
      rfl
    · rw [scan_step_open_none st tok hl ho h50] at hstep
      exact absurd hstep (by simp)
  | false =>
    rw [scan_step_tok st tok hl ho] at hstep
    simp only [Option.some.injEq] at hstep
    subst hstep
    rw [hl] at hl1
    exact absurd hl1 (by decide)

/-! ### Order of the recorded spans -/

theorem scan_inv_init : ScanInv scan_init := by
  refine ⟨?_, ?_, ?_, ?_⟩
  · intro k hk
    simp [scan_init] at hk
  · intro k hk
    simp [scan_init] at hk
  · intro h
    simp [scan_init] at h
  · simp [scan_init]

theorem scan_inv_advance (st : ScanState) (h : ScanInv st) :
    ScanInv { st with i := st.i + 1 } := by
  obtain ⟨h1, h2, h3, h4⟩ := h
  refine ⟨?_, h2, ?_, ?_⟩
  · intro k hk
    have := h1 k hk
    simp only [] at hk ⊢
    push_cast
    omega
  · intro hl
    have := h3 hl
    simp only [] at this ⊢
    push_cast
    exact ⟨this.1, by omega, this.2.2⟩
  · simp only [] at h4 ⊢
    omega

theorem scan_inv_open (st : ScanState) (h : ScanInv st) (hl : st.lock = false) (c : Char) :
    ScanInv { st with
      lock := true
      start_idx := Function.update st.start_idx st.count (st.i : Int)
      val := c
      i := st.i + 1 } := by
  obtain ⟨h1, h2, _, h4⟩ := h
  rw [hl] at h4
  simp only [Bool.false_eq_true, if_false] at h4
  refine ⟨?_, ?_, ?_, ?_⟩
  · intro k hk
    simp only [] at hk ⊢
    rw [Function.update_noteq (by omega)]
    have := h1 k hk
    push_cast
    omega
  · intro k hk
    simp only [] at hk ⊢
    rw [Function.update_noteq (by omega)]
    exact h2 k hk
  · intro _
    simp only [Function.update_same]
    refine ⟨by omega, by push_cast; omega, ?_⟩
    intro k hk
    exact (h1 k hk).2.2
  · simp only [if_true]
    omega

theorem scan_inv_close (st : ScanState) (h : ScanInv st) (hl : st.lock = true) :
    ScanInv { st with
      end_idx := Function.update st.end_idx st.count (st.i : Int)
      lock := false
      count := st.count + 1
      i := st.i + 1 } := by
  obtain ⟨h1, h2, h3, h4⟩ := h
  obtain ⟨h3a, h3b, h3c⟩ := h3 hl
  rw [hl] at h4
  simp only [if_true] at h4
  refine ⟨?_, ?_, ?_, ?_⟩
  · intro k hk
    simp only [] at hk ⊢
    by_cases hkc : k = st.count
    · subst hkc
      rw [Function.update_same]
      push_cast
      omega
    · rw [Function.update_noteq hkc]
      have := h1 k (by omega)
      push_cast
      omega
  · intro k hk
    simp only [] at hk ⊢
    rw [Function.update_noteq (by omega)]
    by_cases hkc : k + 1 = st.count
    · rw [hkc]
      exact h3c k (by omega)
    · exact h2 k (by omega)
  · intro hfalse
    simp at hfalse
  · simp only [Bool.false_eq_true, if_false]
    omega

theorem scan_step_inv (st st1 : ScanState) (tok : CStr) (h : ScanInv st)
    (hstep : scan_step st tok = some st1) : ScanInv st1 ∧ st1.i = st.i + 1 := by
  cases hl : st.lock with
  | false =>
    cases ho : opens tok with
    | true =>
      by_cases h50 : st.count < 50
      · rw [scan_step_open st tok hl ho h50] at hstep
        simp only [Option.some.injEq] at hstep
        subst hstep
        exact ⟨scan_inv_open st h hl _, rfl⟩
      · rw [scan_step_open_none st tok hl ho h50] at hstep
        exact absurd hstep (by simp)
    | false =>
      rw [scan_step_tok st tok hl ho] at hstep
      simp only [Option.some.injEq] at hstep
      subst hstep
      exact ⟨scan_inv_advance st h, rfl⟩
  | true =>
    by_cases hc : check_quote tok = st.val
    · by_cases h50 : st.count < 50
      · rw [scan_step_close st tok hl hc h50] at hstep
        simp only [Option.some.injEq] at hstep
        subst hstep
        exact ⟨scan_inv_close st h hl, rfl⟩
      · rw [scan_step_close_none st tok hl hc h50] at hstep
        exact absurd hstep (by simp)
    · rw [scan_step_mid st tok hl hc] at hstep
      simp only [Option.some.injEq] at hstep
      subst hstep
      exact ⟨scan_inv_advance st h, rfl⟩

theorem scan_loop_inv (cmd : List CStr) : ∀ st st1 : ScanState, ScanInv st →
    scan_loop st cmd = some st1 → ScanInv st1 ∧ st1.i = st.i + cmd.length := by
  induction cmd with
  | nil =>
    intro st st1 h hs
    simp only [scan_loop, Option.some.injEq] at hs
    subst hs
    exact ⟨h, rfl⟩
  | cons tok cmd ih =>
    intro st st1 h hs
    unfold scan_loop at hs
    cases hstep : scan_step st tok with
    | none => rw [hstep] at hs; simp at hs
    | some st2 =>
      rw [hstep] at hs
      simp only [] at hs
      obtain ⟨hinv2, hi2⟩ := scan_step_inv st st2 tok h hstep
      obtain ⟨hinv1, hi1⟩ := ih st2 st1 hinv2 hs
      refine ⟨hinv1, ?_⟩
      rw [hi1, hi2, List.length_cons]
      omega

/-- After the scan the recorded spans are in order and inside the array. -/
theorem scan_spans_ordered (cmd : List CStr) (st : ScanState)
    (h : scan_loop scan_init cmd = some st) :
    (∀ k, k < st.count →
      0 ≤ st.start_idx k ∧ st.start_idx k < st.end_idx k ∧
        st.end_idx k < (cmd.length : Int)) ∧
    (∀ k, k + 1 < st.count → st.end_idx k < st.start_idx (k + 1)) ∧
    2 * st.count ≤ cmd.length := by
  obtain ⟨⟨h1, h2, _, h4⟩, hi⟩ := scan_loop_inv cmd scan_init st scan_inv_init h
  have hlen : st.i = cmd.length := by simpa [scan_init] using hi
  rw [hlen] at h1 h4
  refine ⟨h1, h2, ?_⟩
  split at h4 <;> omega

theorem merge_calls_lt (S E : Nat → Int) (n : Nat) :
    ∀ (ptr : Nat) (r : Int) (cmd : List CStr),
      (∀ k, k < ptr + n → S k < E k) →
      ∀ p ∈ merge_calls S E n ptr r cmd, p.1 < p.2 := by
  induction n with
  | zero =>
    intro ptr r cmd _ p hp
    simp [merge_calls] at hp
  | succ n ih =>
    intro ptr r cmd hlt p hp
    unfold merge_calls at hp
    split at hp
    · simp at hp
    · rcases List.mem_cons.mp hp with rfl | hp
      · have := hlt ptr (by omega)
        simp only []
        omega
      · cases hc : concatenate_quotes cmd (S ptr - r) (E ptr - r) with
        | none => rw [hc] at hp; simp at hp
        | some res =>
          obtain ⟨cmd1, r1⟩ := res
          rw [hc] at hp
          simp only [] at hp
          exact ih (ptr + 1) r1 cmd1 (fun k hk => hlt k (by omega)) p hp

/-- Every call of `concatenate_quotes` made by `quote_concat_ll` has its
start index strictly below its end index. -/
theorem quote_concat_calls_lt (cmd : List CStr) :
    ∀ p ∈ quote_concat_calls cmd, p.1 < p.2 := by
  intro p hp
  unfold quote_concat_calls at hp
  cases hs : scan_loop scan_init cmd with
  | none => rw [hs] at hp; simp at hp
  | some st =>
    rw [hs] at hp
    simp only [] at hp
    split at hp
    · simp at hp
    · have hord := scan_spans_ordered cmd st hs
      exact merge_calls_lt st.start_idx st.end_idx st.count 0 0 cmd
        (fun k hk => (hord.1 k (by omega)).2.1) p hp

/-- C18: the spans recorded by the scan are in order and disjoint, each
with `0 ≤ start < end < number of tokens`, and every call of
`concatenate_quotes` is made with its start strictly below its end. This does
not keep every call inside the array: on `"a b" "c d" "e f"` the third call
is made with (3, 4) on an array of four strings and reads past its end. -/
theorem scan_spans_disjoint :
    (∀ (cmd : List CStr) (st : ScanState), scan_loop scan_init cmd = some st →
      (∀ k, k < st.count →
        0 ≤ st.start_idx k ∧ st.start_idx k < st.end_idx k ∧
          st.end_idx k < (cmd.length : Int)) ∧
      (∀ k, k + 1 < st.count → st.end_idx k < st.start_idx (k + 1))) ∧
    (∀ (cmd : List CStr), ∀ p ∈ quote_concat_calls cmd, p.1 < p.2) ∧
    quote_concat_calls [DQ :: cstr "a", cstr "b" ++ [DQ], DQ :: cstr "c", cstr "d" ++ [DQ],
        DQ :: cstr "e", cstr "f" ++ [DQ]] = [(0, 1), (1, 2), (3, 4)] ∧
    concatenate_quotes [DQ :: cstr "a b" ++ [DQ], DQ :: cstr "c d" ++ [DQ], DQ :: cstr "e",
        cstr "f" ++ [DQ]] 3 4 = none ∧
    quote_concat_ll [DQ :: cstr "a", cstr "b" ++ [DQ], DQ :: cstr "c", cstr "d" ++ [DQ],
        DQ :: cstr "e", cstr "f" ++ [DQ]] 6 = none := by
  refine ⟨?_, quote_concat_calls_lt, by decide!, by decide!, by decide!⟩
  intro cmd st h
  have := scan_spans_ordered cmd st h
  exact ⟨this.1, this.2.1⟩

/-! ### The 50 slots of the index arrays -/

theorem scan_loop_within_slots (cmd : List CStr) : ∀ st : ScanState, ScanInv st →
    st.i + cmd.length ≤ 100 → ∃ st1, scan_loop st cmd = some st1 := by
  induction cmd with
  | nil => intro st _ _; exact ⟨st, rfl⟩
  | cons tok cmd ih =>
    intro st hinv hlen
    simp only [List.length_cons] at hlen
    have h4 := hinv.2.2.2
    have h50 : st.count < 50 := by
      split at h4 <;> omega
    have hstep : ∃ st2, scan_step st tok = some st2 := by
      cases hl : st.lock with
      | false =>
        cases ho : opens tok with
        | true => exact ⟨_, scan_step_open st tok hl ho h50⟩
        | false => exact ⟨_, scan_step_tok st tok hl ho⟩
      | true =>
        by_cases hc : check_quote tok = st.val
        · exact ⟨_, scan_step_close st tok hl hc h50⟩
        · exact ⟨_, scan_step_mid st tok hl hc⟩
    obtain ⟨st2, hst2⟩ := hstep
    obtain ⟨hinv2, hi2⟩ := scan_step_inv st st2 tok hinv hst2
    obtain ⟨st1, hst1⟩ := ih st2 hinv2 (by omega)
    refine ⟨st1, ?_⟩
    unfold scan_loop
    rw [hst2]
    exact hst1

/-- C19 fails on the code: the line of 101 double quotes separated by single
spaces has 201 characters; its first hundred tokens fill the 50 slots and the
last token opens a span with `count = 50`, so `start_idx[50]` is written.
Only up to 100 tokens is the scan sure to stay inside the arrays. -/
theorem scan_overflows_index_arrays :
    (∀ cmd : List CStr, cmd.length ≤ 100 → ∃ st, scan_loop scan_init cmd = some st) ∧
    (List.intercalate [SP] (List.replicate 101 [DQ])).length = 201 ∧
    tokenize (List.intercalate [SP] (List.replicate 101 [DQ])) = List.replicate 101 [DQ] ∧
    (scan_loop scan_init (List.replicate 100 [DQ])).map
        (fun st => (st.count, st.lock)) = some (50, false) ∧
    (scan_loop scan_init (List.replicate 101 [DQ])).isNone = true ∧
    command_parser_fn (List.intercalate [SP] (List.replicate 101 [DQ])) (fun _ => none) =
      none := by
  refine ⟨?_, by decide!⟩
  intro cmd hlen
  exact scan_loop_within_slots cmd scan_init scan_inv_init (by simpa [scan_init] using hlen)

end SimpleShell
